import Mathlib

/-
Verification of the `container4c` doubly linked list (`src/source/list.c`,
header `src/test/list.h`) against its natural-language specification.

The embedding models the node store as a heap: a partial map from addresses
(`Nat`) to node records, together with a fresh-address counter.  `none` plays
the role of the C `NULL` pointer.  Each Lean definition below mirrors one C
function of `list.c`; allocation outcomes of the external allocation facility
(`zmalloc`) are passed in explicitly as booleans, since the core is
parametric in when the allocator fails.
-/

set_option autoImplicit false

namespace Adlist

variable {V : Type}

/-- The fields of `list_node_t`: `prev`, `next` (node addresses, `none` = NULL)
and the stored `value`. -/
structure NodeData (V : Type) where
  prev : Option Nat
  next : Option Nat
  value : V
deriving Repr, DecidableEq

/-- The node store.  `mem` maps an address to the node allocated there (or
`none` when the address is unallocated); `nextAddr` is the next fresh address
handed out by the allocation facility. -/
structure Heap (V : Type) where
  mem : Nat → Option (NodeData V)
  nextAddr : Nat

/-- Read the node at address `a` (dereference a node pointer). -/
def Heap.get (h : Heap V) (a : Nat) : Option (NodeData V) :=
  h.mem a

/-- Overwrite the node at address `a`. -/
def Heap.set (h : Heap V) (a : Nat) (nd : NodeData V) : Heap V :=
  { h with mem := fun b => if b = a then some nd else h.mem b }

/-- Allocate a fresh node (`zmalloc` succeeding): returns the fresh address
and the grown heap. -/
def Heap.alloc (h : Heap V) (nd : NodeData V) : Nat × Heap V :=
  (h.nextAddr,
   { mem := fun b => if b = h.nextAddr then some nd else h.mem b,
     nextAddr := h.nextAddr + 1 })

/-- Release the node at address `a` (`zfree`). -/
def Heap.free (h : Heap V) (a : Nat) : Heap V :=
  { h with mem := fun b => if b = a then none else h.mem b }

/-- Write `a->prev = p`.  Writing through a pointer to an unallocated node is
undefined behaviour in C; the model leaves the heap unchanged there, and the
case is unreachable on well-formed lists. -/
def Heap.setPrev (h : Heap V) (a : Nat) (p : Option Nat) : Heap V :=
  match h.get a with
  | none => h
  | some nd => h.set a { nd with prev := p }

/-- Write `a->next = n`; same conventions as `Heap.setPrev`. -/
def Heap.setNext (h : Heap V) (a : Nat) (n : Option Nat) : Heap V :=
  match h.get a with
  | none => h
  | some nd => h.set a { nd with next := n }

/-- The fields of `list_t`, in declaration order: boundary references,
the three optional callbacks (`dup`, `free`, `match`) and the length.
The `match` field is named `match_` because `match` is reserved in Lean. -/
structure ListT (V : Type) where
  head : Option Nat
  tail : Option Nat
  dup : Option (V → Option V)
  free : Option (V → Unit)
  match_ : Option (V → V → Bool)
  len : Nat

/-- The fields of `list_iter_t`: the cursor (`next`) and the direction. -/
structure Iter where
  next : Option Nat
  direction : Nat
deriving Repr, DecidableEq

/-- `_START_HEAD` of `list.h`. -/
def START_HEAD : Nat := 0

/-- `_START_TAIL` of `list.h`. -/
def START_TAIL : Nat := 1

/-- `list_create`.  `ok` is the outcome of the allocation of the `list_t`
struct itself; on failure the C code returns NULL. -/
def list_create (ok : Bool) : Option (ListT V) :=
  if ok then
    some { head := none, tail := none, dup := none, free := none,
           match_ := none, len := 0 }
  else none

/-- `list_add_head`.  `ok` is the outcome of the node allocation; the C code
checks it before touching the list.  The returned boolean is `true` when the
C function returns the list pointer and `false` when it returns NULL. -/
def list_add_head (h : Heap V) (l : ListT V) (value : V) (ok : Bool) :
    Heap V × ListT V × Bool :=
  if !ok then (h, l, false)
  else if l.len = 0 then
    let (a, h1) := h.alloc { prev := none, next := none, value := value }
    (h1, { l with head := some a, tail := some a, len := l.len + 1 }, true)
  else
    let (a, h1) := h.alloc { prev := none, next := l.head, value := value }
    let h2 := match l.head with
      | none => h1   -- `list->head->prev` with a NULL head: unreachable when len ≠ 0
      | some hd => h1.setPrev hd (some a)
    (h2, { l with head := some a, len := l.len + 1 }, true)

/-- `list_add` (add to tail); conventions as in `list_add_head`. -/
def list_add (h : Heap V) (l : ListT V) (value : V) (ok : Bool) :
    Heap V × ListT V × Bool :=
  if !ok then (h, l, false)
  else if l.len = 0 then
    let (a, h1) := h.alloc { prev := none, next := none, value := value }
    (h1, { l with head := some a, tail := some a, len := l.len + 1 }, true)
  else
    let (a, h1) := h.alloc { prev := l.tail, next := none, value := value }
    let h2 := match l.tail with
      | none => h1   -- `list->tail->next` with a NULL tail: unreachable when len ≠ 0
      | some tl => h1.setNext tl (some a)
    (h2, { l with tail := some a, len := l.len + 1 }, true)

/-- `list_insert`.  The caller guarantees `old` is a node of `list`;
dereferencing an address outside the heap is undefined behaviour in C and the
model returns the state unchanged there (unreachable on valid calls). -/
def list_insert (h : Heap V) (l : ListT V) (old : Nat) (value : V)
    (after : Bool) (ok : Bool) : Heap V × ListT V × Bool :=
  if !ok then (h, l, false)
  else match h.get old with
  | none => (h, l, false)
  | some ond =>
    let nd : NodeData V :=
      if after then { prev := some old, next := ond.next, value := value }
      else { prev := ond.prev, next := some old, value := value }
    let (a, h1) := h.alloc nd
    let l1 :=
      if after then (if l.tail = some old then { l with tail := some a } else l)
      else (if l.head = some old then { l with head := some a } else l)
    let h2 := match nd.prev with
      | none => h1
      | some p => h1.setNext p (some a)
    let h3 := match nd.next with
      | none => h2
      | some n => h2.setPrev n (some a)
    (h3, { l1 with len := l1.len + 1 }, true)

/-- `list_remove`.  Returns the updated heap and list, and the trace of
values passed to the `free` callback (one invocation when it is installed).
The caller guarantees `a` is a node of `list`; on an address outside the heap
(undefined behaviour in C) the model returns the state unchanged. -/
def list_remove (h : Heap V) (l : ListT V) (a : Nat) :
    Heap V × ListT V × List V :=
  match h.get a with
  | none => (h, l, [])
  | some nd =>
    let (h1, l1) := match nd.prev with
      | some p => (h.setNext p nd.next, l)
      | none => (h, { l with head := nd.next })
    let (h2, l2) := match nd.next with
      | some n => (h1.setPrev n nd.prev, l1)
      | none => (h1, { l1 with tail := nd.prev })
    let rel := match l.free with
      | some _ => [nd.value]
      | none => []
    (h2.free a, { l2 with len := l2.len - 1 }, rel)

/-- `list_iterator`.  `ok` is the outcome of the iterator allocation; the C
code returns NULL on failure (despite the header comment saying the function
cannot fail). -/
def list_iterator (l : ListT V) (direction : Nat) (ok : Bool) : Option Iter :=
  if !ok then none
  else some { next := if direction = START_HEAD then l.head else l.tail,
              direction := direction }

/-- `list_rewind`. -/
def list_rewind (l : ListT V) (_li : Iter) : Iter :=
  { next := l.head, direction := START_HEAD }

/-- `list_rewind_tail`. -/
def list_rewind_tail (l : ListT V) (_li : Iter) : Iter :=
  { next := l.tail, direction := START_TAIL }

/-- `list_next`: returns the current cursor node (NULL when exhausted) and
advances the cursor to that node's `next`/`prev` before returning.  A cursor
on a freed node is undefined behaviour in C; the model leaves the iterator
unchanged there (unreachable for valid iterators). -/
def list_next (h : Heap V) (iter : Iter) : Option Nat × Iter :=
  match iter.next with
  | none => (none, iter)
  | some a =>
    match h.get a with
    | none => (some a, iter)
    | some nd =>
      (some a,
       { iter with
         next := if iter.direction = START_HEAD then nd.next else nd.prev })

/-- The pointer walk of `list_index`: `while(index-- && n) n = n->step;`.
A dangling link (undefined behaviour in C) yields `none`; unreachable on
well-formed lists. -/
def walkBy (h : Heap V) (step : NodeData V → Option Nat) :
    Nat → Option Nat → Option Nat
  | 0, n => n
  | _ + 1, none => none
  | k + 1, some a =>
    match h.get a with
    | none => none
    | some nd => walkBy h step k (step nd)

/-- `list_index`: nonnegative positions walk `next` from the head, negative
positions walk `prev` from the tail after the adjustment `index = (-index)-1`. -/
def list_index (h : Heap V) (l : ListT V) (index : Int) : Option Nat :=
  if index < 0 then
    walkBy h (fun nd => nd.prev) ((-index) - 1).toNat l.tail
  else
    walkBy h (fun nd => nd.next) index.toNat l.head

/-- `list_rotate`: no-op when `list_size(list) <= 1`, otherwise detaches the
tail node and relinks it as the head.  The `none` fallbacks correspond to
NULL dereferences that are unreachable when the list is well formed. -/
def list_rotate (h : Heap V) (l : ListT V) : Heap V × ListT V :=
  if l.len ≤ 1 then (h, l)
  else match l.tail with
  | none => (h, l)
  | some t =>
    match h.get t with
    | none => (h, l)
    | some tnd =>
      let l1 := { l with tail := tnd.prev }
      let h1 := match l1.tail with
        | none => h
        | some nt => h.setNext nt none
      let h2 := match l.head with
        | none => h1
        | some hd => h1.setPrev hd (some t)
      let h3 := h2.setPrev t none
      let h4 := h3.setNext t l.head
      (h4, { l1 with head := some t })

/-- The node-releasing loop of `list_free`: walks `len` nodes from the head,
invoking the `free` callback on each value when installed (collected as a
trace, in call order) and releasing each node.  Running past the end of the
chain is undefined behaviour in C; the model stops there. -/
def freeNodes (h : Heap V) (hasFree : Bool) :
    Nat → Option Nat → Heap V × List V
  | 0, _ => (h, [])
  | _ + 1, none => (h, [])
  | k + 1, some a =>
    match h.get a with
    | none => (h, [])
    | some nd =>
      let (h', rel) := freeNodes (h.free a) hasFree k nd.next
      (h', (if hasFree then [nd.value] else []) ++ rel)

/-- `list_free`: releases every node of the list (the `list_t` struct itself
is not heap-resident in this model). -/
def list_free (h : Heap V) (l : ListT V) : Heap V × List V :=
  freeNodes h l.free.isSome l.len l.head

/-- Draw the next allocation outcome from a stream of outcomes; a stream that
has run out means the allocator keeps succeeding. -/
def takeOk : List Bool → Bool × List Bool
  | [] => (true, [])
  | b :: bs => (b, bs)

/-- Whether the value at node `a` matches `key` the way the loop body of
`list_search` tests it: `list->match(node->value, key)` when a match callback
is installed, pointer identity `key == node->value` otherwise. -/
def matchesKey [DecidableEq V] (h : Heap V) (l : ListT V) (key : V) (a : Nat) :
    Bool :=
  match h.get a with
  | none => false
  | some nd =>
    match l.match_ with
    | some m => m nd.value key
    | none => decide (key = nd.value)

/-- The scan loop of `list_search`.  `Except.error ()` models a crash
(dereference of a dangling node, or a loop that outruns the chain, both
unreachable on well-formed lists). -/
def searchLoop [DecidableEq V] (h : Heap V) (l : ListT V) (key : V) :
    Nat → Iter → Except Unit (Option Nat)
  | 0, _ => .error ()
  | fuel + 1, it =>
    match list_next h it with
    | (none, _) => .ok none
    | (some a, it') =>
      match h.get a with
      | none => .error ()
      | some nd =>
        let hit : Bool := match l.match_ with
          | some m => m nd.value key
          | none => decide (key = nd.value)
        if hit then .ok (some a) else searchLoop h l key fuel it'

/-- `list_search`.  `ok` is the outcome of the internal iterator allocation.
The C code does not check `list_iterator`'s result, so on allocation failure
`list_next` dereferences a NULL iterator: modelled as `Except.error ()`
(a crash). -/
def list_search [DecidableEq V] (h : Heap V) (l : ListT V) (key : V)
    (ok : Bool) : Except Unit (Option Nat) :=
  match list_iterator l START_HEAD ok with
  | none => .error ()
  | some it => searchLoop h l key (l.len + 1) it

/-- The copy loop of `list_clone`.  Threads the heap, the iterator over the
original, the copy under construction, the stream of allocation outcomes,
the trace `rel` of values passed to the `free` callback and the trace `dupd`
of values produced by the `dup` callback.  On a duplication failure or a
node-allocation failure the partial copy is torn down with `list_free`, as
in the C code.  `Except.error ()` models a crash (unreachable on well-formed
lists). -/
def cloneLoop :
    Nat → Heap V → Iter → ListT V → List Bool → List V → List V →
    Except Unit (Heap V × Option (ListT V) × List V × List V)
  | 0, _, _, _, _, _, _ => .error ()
  | fuel + 1, h, it, copy, oks, rel, dupd =>
    match list_next h it with
    | (none, _) => .ok (h, some copy, rel, dupd)
    | (some a, it') =>
      match h.get a with
      | none => .error ()
      | some nd =>
        match copy.dup with
        | some f =>
          match f nd.value with
          | none =>
            let (h', r) := list_free h copy
            .ok (h', none, rel ++ r, dupd)
          | some v' =>
            let (ok, oks') := takeOk oks
            match list_add h copy v' ok with
            | (h1, copy1, true) =>
              cloneLoop fuel h1 it' copy1 oks' rel (dupd ++ [v'])
            | (h1, copy1, false) =>
              let (h', r) := list_free h1 copy1
              .ok (h', none, rel ++ r, dupd ++ [v'])
        | none =>
          let (ok, oks') := takeOk oks
          match list_add h copy nd.value ok with
          | (h1, copy1, true) =>
            cloneLoop fuel h1 it' copy1 oks' rel dupd
          | (h1, copy1, false) =>
            let (h', r) := list_free h1 copy1
            .ok (h', none, rel ++ r, dupd)

/-- `list_clone`.  The first outcome of `oks` is the allocation of the copy's
`list_t`, the second the internal iterator, and the rest the node allocations
of the loop.  As in `list_search`, the missing NULL check after
`list_iterator` means an iterator-allocation failure crashes
(`Except.error ()`).  On success returns the heap, the copy (or `none` when
the clone failed and was torn down), the release trace and the duplication
trace. -/
def list_clone (h : Heap V) (orig : ListT V) (oks : List Bool) :
    Except Unit (Heap V × Option (ListT V) × List V × List V) :=
  let (ok1, oks1) := takeOk oks
  match list_create (V := V) ok1 with
  | none => .ok (h, none, [], [])
  | some copy0 =>
    let copy := { copy0 with dup := orig.dup, free := orig.free,
                             match_ := orig.match_ }
    let (ok2, oks2) := takeOk oks1
    match list_iterator orig START_HEAD ok2 with
    | none => .error ()
    | some it => cloneLoop (orig.len + 1) h it copy oks2 [] []

/-- Addresses visited by a pointer walk from `start`, following the link
selected by `step`, for at most `fuel` steps.  With `step = next` this is the
forward traversal of the list, with `step = prev` the backward traversal. -/
def spine (h : Heap V) (step : NodeData V → Option Nat) :
    Nat → Option Nat → List Nat
  | 0, _ => []
  | _ + 1, none => []
  | k + 1, some a =>
    match h.get a with
    | none => []
    | some nd => a :: spine h step k (step nd)

/-- Forward traversal: addresses reachable from `start` via `next` links. -/
def fwdAddrs (h : Heap V) (fuel : Nat) (start : Option Nat) : List Nat :=
  spine h (fun nd => nd.next) fuel start

/-- Backward traversal: addresses reachable from `start` via `prev` links. -/
def bwdAddrs (h : Heap V) (fuel : Nat) (start : Option Nat) : List Nat :=
  spine h (fun nd => nd.prev) fuel start

/-- The forward link expected of a node whose successors in the chain are
`l2`, with `q` the link out of the whole chain. -/
def seamN (l2 : List Nat) (q : Option Nat) : Option Nat :=
  match l2 with
  | [] => q
  | b :: _ => some b

/-- The backward link expected of a node whose predecessors in the chain are
`l1`, with `p` the link out of the whole chain: the last address of `l1`,
or `p` when `l1` is empty. -/
def seamP (p : Option Nat) : List Nat → Option Nat
  | [] => p
  | a :: t => seamP (some a) t

/-- `chainG h gp gn p as q`: the addresses `as` form a doubly linked run in
`h`, `gp`/`gn` selecting the backward/forward link of a node.  The first
node's backward link is `p`, each node's forward link is the next address of
`as` (the last one's is `q`), and each node's backward link is the previous
address of `as`. -/
def chainG (h : Heap V) (gp gn : NodeData V → Option Nat) :
    Option Nat → List Nat → Option Nat → Bool
  | _, [], _ => true
  | p, a :: rest, q =>
    match h.get a with
    | none => false
    | some nd =>
      (gp nd == p) && (gn nd == seamN rest q) && chainG h gp gn (some a) rest q

/-- The doubly linked chain in list order: `prev` is the backward link and
`next` the forward link. -/
def chain (h : Heap V) : Option Nat → List Nat → Option Nat → Bool :=
  chainG h (fun nd => nd.prev) (fun nd => nd.next)

/-- Well-formedness of a list whose nodes, in order, sit at addresses `as`:
the addresses form a doubly linked NULL-terminated chain, the boundary
references are the first and last address, `len` is the number of nodes, the
addresses are distinct and all of them are below the allocator's fresh
address. -/
def wfWith (h : Heap V) (l : ListT V) (as : List Nat) : Bool :=
  chain h none as none
    && l.head == as.head? && l.tail == as.getLast? && l.len == as.length
    && decide as.Nodup && as.all (fun a => a < h.nextAddr)

/-- Well-formedness with the chain recovered by forward traversal. -/
def wf (h : Heap V) (l : ListT V) : Bool :=
  wfWith h l (fwdAddrs h l.len l.head)

/-- The value stored at node `a`. -/
def valueAt (h : Heap V) (a : Nat) : Option V :=
  (h.get a).map (fun nd => nd.value)

/-- The values stored at the nodes `as`, in order. -/
def valuesOf (h : Heap V) (as : List Nat) : List V :=
  as.filterMap (valueAt h)

/-- One call of the mutating API, as issued by a caller.  Allocation outcomes
are part of the call.  `insertAt`/`removeAt` designate the anchor node by its
forward position, resolved with `list_index`; the C functions take the node
pointer directly, and the caller guarantees it belongs to the list, so a
driver may only ever pass a node the list contains — an out-of-range
position makes the call impossible and is skipped. -/
inductive Op (V : Type) where
  | addFront (ok : Bool) (v : V)
  | addBack (ok : Bool) (v : V)
  | insertAt (ok : Bool) (pos : Nat) (after : Bool) (v : V)
  | removeAt (pos : Nat)
  | rot

/-- Apply one operation to the heap and list. -/
def applyOp (s : Heap V × ListT V) : Op V → Heap V × ListT V
  | .addFront ok v => let r := list_add_head s.1 s.2 v ok; (r.1, r.2.1)
  | .addBack ok v => let r := list_add s.1 s.2 v ok; (r.1, r.2.1)
  | .insertAt ok pos after v =>
    match list_index s.1 s.2 (pos : Int) with
    | none => s
    | some a => let r := list_insert s.1 s.2 a v after ok; (r.1, r.2.1)
  | .removeAt pos =>
    match list_index s.1 s.2 (pos : Int) with
    | none => s
    | some a => let r := list_remove s.1 s.2 a; (r.1, r.2.1)
  | .rot => list_rotate s.1 s.2

/-- The empty heap: nothing allocated. -/
def emptyHeap (V : Type) : Heap V :=
  ⟨fun _ => none, 0⟩

/-- The state right after a successful `list_create`: empty heap, empty list,
no callbacks. -/
def initState (V : Type) : Heap V × ListT V :=
  (emptyHeap V, ⟨none, none, none, none, none, 0⟩)

/-- Run a sequence of operations starting from a freshly created list. -/
def runOps (ops : List (Op V)) : Heap V × ListT V :=
  ops.foldl applyOp (initState V)

/-- The list invariants of the specification: `count` equals the number of
nodes reachable from `front` via `next` links (the forward traversal, given
one spare step of fuel, visits exactly `count` nodes), the backward traversal
from `back` is the exact reverse of the forward traversal from `front`, and
`count = 0` exactly when both boundary references are empty. -/
def invariants (h : Heap V) (l : ListT V) : Prop :=
  (fwdAddrs h (l.len + 1) l.head).length = l.len ∧
  bwdAddrs h (l.len + 1) l.tail = (fwdAddrs h (l.len + 1) l.head).reverse ∧
  (l.len = 0 ↔ l.head = none ∧ l.tail = none)

/-- The effect of `list_rotate` on the address chain: the last node becomes
the first. -/
def rotAbs (as : List Nat) : List Nat :=
  match as.getLast? with
  | none => as
  | some z => z :: as.dropLast

/-- `list_rotate` iterated `n` times. -/
def rotateN (h : Heap V) (l : ListT V) : Nat → Heap V × ListT V
  | 0 => (h, l)
  | n + 1 =>
    let s := list_rotate h l
    rotateN s.1 s.2 n

/-- `list_set_clone_method` of `list.h`. -/
def list_set_clone_method (l : ListT V) (m : Option (V → Option V)) : ListT V :=
  { l with dup := m }

/-- `list_set_free_method` of `list.h`. -/
def list_set_free_method (l : ListT V) (m : Option (V → Unit)) : ListT V :=
  { l with free := m }

/-- `list_set_match_method` of `list.h`. -/
def list_set_match_method (l : ListT V) (m : Option (V → V → Bool)) : ListT V :=
  { l with match_ := m }

/-- The effect of `list_rotate` on the address chain, iterated. -/
def rotAbsN : Nat → List Nat → List Nat
  | 0, as => as
  | n + 1, as => rotAbsN n (rotAbs as)

/-- A concrete state used to instantiate theorems: the heap and list after
`add_back 1; add_back 2; add_back 3` on a fresh list (nodes at addresses
0, 1, 2). -/
def demoState : Heap Nat × ListT Nat :=
  runOps [.addBack true 1, .addBack true 2, .addBack true 3]

/-- A concrete two-element source list (values 10, 20 at addresses 0, 1) for
exercising `list_clone`. -/
def c3_state : Heap Nat × ListT Nat :=
  runOps [.addBack true 10, .addBack true 20]

/-- The same list with a duplicate-value callback (`v + 1`) and a
release-value callback installed, as a clone source. -/
def c3_orig : ListT Nat :=
  list_set_free_method
    (list_set_clone_method c3_state.2 (some (fun v => some (v + 1))))
    (some (fun _ => ()))

/-- What C7 asserts of `list_rotate` on a well-formed list with address
chain `as`: no-op when `count <= 1`; no allocation (the fresh-address
counter and the set of allocated addresses are untouched); with at least two
nodes the old back node becomes the new front and the chain is rotated; and
`count` rotations restore the original chain with every value intact. -/
def rotateClaim (V : Type) (h : Heap V) (l : ListT V) (as : List Nat) : Prop :=
  (l.len ≤ 1 → list_rotate h l = (h, l)) ∧
  ((list_rotate h l).1.nextAddr = h.nextAddr ∧
    ∀ x, (((list_rotate h l).1).get x).isSome = (h.get x).isSome) ∧
  (2 ≤ l.len → (list_rotate h l).2.head = l.tail ∧
    wfWith (list_rotate h l).1 (list_rotate h l).2 (rotAbs as) = true) ∧
  (wfWith (rotateN h l l.len).1 (rotateN h l l.len).2 as = true ∧
    ∀ x, valueAt (rotateN h l l.len).1 x = valueAt h x)

/-- What C6 asserts of `list_index`: positions in `[0, count)` return the
p-th node of the forward traversal, positions in `[-count, -1]` the
`(-p-1)`-th node of the backward traversal, anything else Empty. -/
def indexClaim (V : Type) (h : Heap V) (l : ListT V) (p : Int) : Prop :=
  list_index h l p =
    if 0 ≤ p ∧ p < (l.len : Int) then (fwdAddrs h l.len l.head)[p.toNat]?
    else if -(l.len : Int) ≤ p ∧ p < 0 then
      (bwdAddrs h l.len l.tail)[((-p) - 1).toNat]?
    else none

/-- What C9 asserts of `list_search` (with the internal iterator allocation
succeeding): the result is the first node of the forward traversal whose
value matches the key, matching with the `match` callback when installed and
by identity otherwise. -/
def searchClaim (V : Type) [DecidableEq V] (h : Heap V) (l : ListT V)
    (key : V) : Prop :=
  list_search h l key true =
    .ok ((fwdAddrs h l.len l.head).find? (matchesKey h l key))

/-- What C10 asserts of `list_rotate`: the length, the three callbacks, every
node's value and the set of allocated addresses are untouched; the multiset
of stored values (as seen by forward traversal) is preserved; and only the
affected nodes may change at all — every node other than the front node, the
back node and the back node's predecessor (the three whose neighbor links
rotate rewires) keeps its full record, links included, unchanged. -/
def rotateFrameClaim (V : Type) (h : Heap V) (l : ListT V) : Prop :=
  (list_rotate h l).2.len = l.len ∧
  (list_rotate h l).2.dup = l.dup ∧
  (list_rotate h l).2.free = l.free ∧
  (list_rotate h l).2.match_ = l.match_ ∧
  (∀ x, valueAt (list_rotate h l).1 x = valueAt h x) ∧
  (∀ x, (((list_rotate h l).1).get x).isSome = (h.get x).isSome) ∧
  (list_rotate h l).1.nextAddr = h.nextAddr ∧
  List.Perm
    (valuesOf (list_rotate h l).1
      (fwdAddrs (list_rotate h l).1 (list_rotate h l).2.len
        (list_rotate h l).2.head))
    (valuesOf h (fwdAddrs h l.len l.head)) ∧
  (∀ x, (fwdAddrs h l.len l.head).head? ≠ some x →
    (fwdAddrs h l.len l.head).getLast? ≠ some x →
    (fwdAddrs h l.len l.head).dropLast.getLast? ≠ some x →
    ((list_rotate h l).1).get x = h.get x)

/-- What C8 asserts of `advance`: an exhausted iterator (empty cursor)
yields Empty and is left unchanged; otherwise `list_next` returns the node
under the cursor and first moves the cursor to that node's `next` (forward)
or `prev` (backward); concretely, on the forward iterator over `[1,2,3]` the
first advance yields the node holding 1 with the cursor on the node holding
2, and after removing the node holding 1 the next advance still yields the
node holding 2. -/
def advanceClaim : Prop :=
  (∀ (V : Type) (h : Heap V) (it : Iter),
    it.next = none → list_next h it = (none, it)) ∧
  (∀ (V : Type) (h : Heap V) (it : Iter) (a : Nat) (nd : NodeData V),
    it.next = some a → h.get a = some nd →
    list_next h it = (some a,
      { it with
        next := if it.direction = START_HEAD then nd.next else nd.prev })) ∧
  (list_iterator demoState.2 START_HEAD true = some ⟨some 0, START_HEAD⟩ ∧
   list_next demoState.1 ⟨some 0, START_HEAD⟩ = (some 0, ⟨some 1, START_HEAD⟩) ∧
   valueAt demoState.1 0 = some 1 ∧
   valueAt demoState.1 1 = some 2 ∧
   list_next (list_remove demoState.1 demoState.2 0).1 ⟨some 1, START_HEAD⟩ =
     (some 1, ⟨some 2, START_HEAD⟩) ∧
   valueAt (list_remove demoState.1 demoState.2 0).1 1 = some 2)

-- Basic heap lemmas.

theorem Heap.get_set (h : Heap V) (a b : Nat) (nd : NodeData V) :
    (h.set a nd).get b = if b = a then some nd else h.get b := rfl

theorem Heap.get_free (h : Heap V) (a b : Nat) :
    (h.free a).get b = if b = a then none else h.get b := rfl

theorem Heap.get_alloc (h : Heap V) (nd : NodeData V) (b : Nat) :
    ((h.alloc nd).2).get b = if b = h.nextAddr then some nd else h.get b := rfl

theorem Heap.nextAddr_set (h : Heap V) (a : Nat) (nd : NodeData V) :
    (h.set a nd).nextAddr = h.nextAddr := rfl

theorem Heap.nextAddr_free (h : Heap V) (a : Nat) :
    (h.free a).nextAddr = h.nextAddr := rfl

theorem Heap.nextAddr_alloc (h : Heap V) (nd : NodeData V) :
    ((h.alloc nd).2).nextAddr = h.nextAddr + 1 := rfl

theorem Heap.get_setPrev_ne (h : Heap V) (a : Nat) (p : Option Nat) (b : Nat)
    (hb : b ≠ a) : (h.setPrev a p).get b = h.get b := by
  unfold Heap.setPrev
  cases hg : h.get a with
  | none => rfl
  | some nd => simp [Heap.get_set, hb]

theorem Heap.get_setNext_ne (h : Heap V) (a : Nat) (n : Option Nat) (b : Nat)
    (hb : b ≠ a) : (h.setNext a n).get b = h.get b := by
  unfold Heap.setNext
  cases hg : h.get a with
  | none => rfl
  | some nd => simp [Heap.get_set, hb]

theorem Heap.get_setPrev_self (h : Heap V) (a : Nat) (p : Option Nat) :
    (h.setPrev a p).get a = (h.get a).map (fun nd => { nd with prev := p }) := by
  unfold Heap.setPrev
  cases hg : h.get a with
  | none => simp [hg]
  | some nd => simp [hg, Heap.get_set]

theorem Heap.get_setNext_self (h : Heap V) (a : Nat) (n : Option Nat) :
    (h.setNext a n).get a = (h.get a).map (fun nd => { nd with next := n }) := by
  unfold Heap.setNext
  cases hg : h.get a with
  | none => simp [hg]
  | some nd => simp [hg, Heap.get_set]

theorem Heap.nextAddr_setPrev (h : Heap V) (a : Nat) (p : Option Nat) :
    (h.setPrev a p).nextAddr = h.nextAddr := by
  unfold Heap.setPrev
  cases h.get a <;> rfl

theorem Heap.nextAddr_setNext (h : Heap V) (a : Nat) (n : Option Nat) :
    (h.setNext a n).nextAddr = h.nextAddr := by
  unfold Heap.setNext
  cases h.get a <;> rfl

theorem Heap.isSome_setPrev (h : Heap V) (a : Nat) (p : Option Nat) (b : Nat) :
    ((h.setPrev a p).get b).isSome = (h.get b).isSome := by
  rcases eq_or_ne b a with hba | hba
  · subst hba; rw [Heap.get_setPrev_self]; cases h.get b <;> rfl
  · rw [Heap.get_setPrev_ne h a p b hba]

theorem Heap.isSome_setNext (h : Heap V) (a : Nat) (n : Option Nat) (b : Nat) :
    ((h.setNext a n).get b).isSome = (h.get b).isSome := by
  rcases eq_or_ne b a with hba | hba
  · subst hba; rw [Heap.get_setNext_self]; cases h.get b <;> rfl
  · rw [Heap.get_setNext_ne h a n b hba]

-- Seam lemmas.

theorem seamN_append (t l2 : List Nat) (q : Option Nat) :
    seamN (t ++ l2) q = seamN t (seamN l2 q) := by
  cases t <;> rfl

theorem seamN_none (t : List Nat) : seamN t none = t.head? := by
  cases t <;> rfl

theorem seamP_cons (p : Option Nat) (a : Nat) (t : List Nat) :
    seamP p (a :: t) = seamP (some a) t := rfl

theorem seamP_concat (t : List Nat) :
    ∀ (p : Option Nat) (z : Nat), seamP p (t ++ [z]) = some z := by
  induction t with
  | nil => intro p z; rfl
  | cons b u ih => intro p z; exact ih (some b) z

theorem seamP_getLast? (t : List Nat) :
    ∀ (p : Option Nat), seamP p t = ((t.getLast?).elim p some : Option Nat) := by
  induction t with
  | nil => intro p; rfl
  | cons b u ih =>
    intro p
    rw [seamP_cons, ih (some b)]
    cases hu : u.getLast? with
    | none =>
      have hu' : u = [] := List.getLast?_eq_none_iff.mp hu
      subst hu'; rfl
    | some z =>
      have hc : (b :: u).getLast? = some z := by
        cases u with
        | nil => cases hu
        | cons c w => rw [List.getLast?_cons_cons]; exact hu
      rw [hc]; rfl

theorem seamP_reverse (q : Option Nat) (t : List Nat) :
    seamP q t.reverse = seamN t q := by
  cases t with
  | nil => rfl
  | cons b u => rw [List.reverse_cons, seamP_concat]; rfl

-- Chain lemmas.

theorem chainG_nil (h : Heap V) (gp gn : NodeData V → Option Nat)
    (p q : Option Nat) : chainG h gp gn p [] q = true := rfl

theorem chainG_cons_eq (h : Heap V) (gp gn : NodeData V → Option Nat)
    (p : Option Nat) (a : Nat) (rest : List Nat) (q : Option Nat) :
    chainG h gp gn p (a :: rest) q =
      match h.get a with
      | none => false
      | some nd =>
        (gp nd == p) && (gn nd == seamN rest q) &&
          chainG h gp gn (some a) rest q := rfl

theorem chainG_cons (h : Heap V) (gp gn : NodeData V → Option Nat)
    (p : Option Nat) (a : Nat) (rest : List Nat) (q : Option Nat) :
    chainG h gp gn p (a :: rest) q = true ↔
      ∃ nd, h.get a = some nd ∧ gp nd = p ∧ gn nd = seamN rest q ∧
        chainG h gp gn (some a) rest q = true := by
  rw [chainG_cons_eq]
  cases hg : h.get a with
  | none => simp [hg]
  | some nd => simp [hg, Bool.and_eq_true, and_assoc]

theorem chainG_isSome (h : Heap V) (gp gn : NodeData V → Option Nat)
    (as : List Nat) :
    ∀ (p q : Option Nat), chainG h gp gn p as q = true →
      ∀ a ∈ as, (h.get a).isSome := by
  induction as with
  | nil => intro p q _ a ha; cases ha
  | cons b rest ih =>
    intro p q hc a ha
    rw [chainG_cons] at hc
    obtain ⟨nd, hg, -, -, hrest⟩ := hc
    rcases List.mem_cons.mp ha with h1 | h2
    · subst h1; simp [hg]
    · exact ih (some b) q hrest a h2

theorem chainG_congr (h h' : Heap V) (gp gn : NodeData V → Option Nat)
    (as : List Nat) :
    ∀ (p q : Option Nat), (∀ a ∈ as, h'.get a = h.get a) →
      chainG h' gp gn p as q = chainG h gp gn p as q := by
  induction as with
  | nil => intro p q _; rfl
  | cons b rest ih =>
    intro p q hagree
    rw [chainG_cons_eq, chainG_cons_eq, hagree b (List.mem_cons_self b rest)]
    cases h.get b with
    | none => rfl
    | some nd =>
      rw [ih (some b) q (fun a ha => hagree a (List.mem_cons_of_mem _ ha))]

theorem chainG_append (h : Heap V) (gp gn : NodeData V → Option Nat)
    (l1 : List Nat) :
    ∀ (l2 : List Nat) (p q : Option Nat),
      chainG h gp gn p (l1 ++ l2) q =
        (chainG h gp gn p l1 (seamN l2 q) &&
         chainG h gp gn (seamP p l1) l2 q) := by
  induction l1 with
  | nil =>
    intro l2 p q
    simp [chainG, seamP]
  | cons a t ih =>
    intro l2 p q
    show chainG h gp gn p (a :: (t ++ l2)) q = _
    rw [chainG_cons_eq, chainG_cons_eq, seamP_cons]
    cases hg : h.get a with
    | none => rfl
    | some nd =>
      rw [ih l2 (some a) q, seamN_append]
      simp [Bool.and_assoc]

theorem chainG_reverse (h : Heap V) (gp gn : NodeData V → Option Nat)
    (as : List Nat) :
    ∀ (p q : Option Nat), chainG h gp gn p as q = true →
      chainG h gn gp q as.reverse p = true := by
  induction as with
  | nil => intro p q _; rfl
  | cons a t ih =>
    intro p q hc
    rw [chainG_cons] at hc
    obtain ⟨nd, hg, hp, hn, hrest⟩ := hc
    have ht := ih (some a) q hrest
    rw [List.reverse_cons, chainG_append]
    apply Bool.and_eq_true_iff.mpr
    constructor
    · exact ht
    · rw [chainG_cons]
      refine ⟨nd, hg, ?_, ?_, chainG_nil _ _ _ _ _⟩
      · rw [hn, seamP_reverse]
      · exact hp

theorem spine_none (h : Heap V) (step : NodeData V → Option Nat) (k : Nat) :
    spine h step k none = [] := by
  cases k <;> rfl

theorem spine_of_chainG (h : Heap V) (gp gn : NodeData V → Option Nat)
    (as : List Nat) :
    ∀ (p : Option Nat) (fuel : Nat),
      chainG h gp gn p as none = true → as.length ≤ fuel →
      spine h gn fuel as.head? = as := by
  induction as with
  | nil => intro p fuel _ _; exact spine_none h gn fuel
  | cons a t ih =>
    intro p fuel hc hf
    rw [chainG_cons] at hc
    obtain ⟨nd, hg, -, hn, hrest⟩ := hc
    cases fuel with
    | zero => simp at hf
    | succ k =>
      have he : spine h gn (k + 1) (some a) =
          match h.get a with
          | none => []
          | some nd => a :: spine h gn k (gn nd) := rfl
      show spine h gn (k + 1) (some a) = a :: t
      rw [he]
      simp only [hg]
      rw [hn, seamN_none]
      exact congrArg (a :: ·) (ih (some a) k hrest (by simpa using hf))

theorem walkBy_none (h : Heap V) (step : NodeData V → Option Nat) (k : Nat) :
    walkBy h step k none = none := by
  cases k <;> rfl

theorem walkBy_of_chainG (h : Heap V) (gp gn : NodeData V → Option Nat)
    (as : List Nat) :
    ∀ (p : Option Nat) (k : Nat), chainG h gp gn p as none = true →
      walkBy h gn k as.head? = as[k]? := by
  induction as with
  | nil => intro p k _; simp [walkBy_none]
  | cons a t ih =>
    intro p k hc
    rw [chainG_cons] at hc
    obtain ⟨nd, hg, -, hn, hrest⟩ := hc
    cases k with
    | zero => simp [walkBy]
    | succ k =>
      have he : walkBy h gn (k + 1) (some a) =
          match h.get a with
          | none => none
          | some nd => walkBy h gn k (gn nd) := rfl
      show walkBy h gn (k + 1) (some a) = (a :: t)[k + 1]?
      rw [he]
      simp only [hg]
      rw [hn, seamN_none, List.getElem?_cons_succ]
      exact ih (some a) k hrest

theorem wfWith_iff (h : Heap V) (l : ListT V) (as : List Nat) :
    wfWith h l as = true ↔
      chain h none as none = true ∧ l.head = as.head? ∧
      l.tail = as.getLast? ∧ l.len = as.length ∧ as.Nodup ∧
      ∀ a ∈ as, a < h.nextAddr := by
  unfold wfWith
  simp [Bool.and_eq_true, List.all_eq_true, and_assoc]

-- Chain surgery lemmas: changing the backward link of the first node, or
-- the forward link of the last node, while leaving the rest of the heap
-- alone (on the chain's addresses).

theorem chain_congr (h h' : Heap V) (as : List Nat) (p q : Option Nat)
    (hagree : ∀ a ∈ as, h'.get a = h.get a)
    (hc : chain h p as q = true) : chain h' p as q = true := by
  unfold chain at *
  rw [chainG_congr h h' _ _ as p q hagree]
  exact hc

theorem chain_cons_prev (h h' : Heap V) (a : Nat) (t : List Nat)
    (p q p' : Option Nat)
    (hc : chain h p (a :: t) q = true)
    (haga : h'.get a = (h.get a).map (fun nd => { nd with prev := p' }))
    (hagt : ∀ x ∈ t, h'.get x = h.get x) :
    chain h' p' (a :: t) q = true := by
  rw [chain] at hc ⊢
  rw [chainG_cons] at hc ⊢
  obtain ⟨nd, hg, hp, hn, hrest⟩ := hc
  refine ⟨{ nd with prev := p' }, ?_, rfl, hn, ?_⟩
  · rw [haga, hg]; rfl
  · rw [chainG_congr h h' _ _ t (some a) q hagt]
    exact hrest

theorem chain_snoc_next (h h' : Heap V) (init : List Nat) (z : Nat)
    (p q q' : Option Nat)
    (hc : chain h p (init ++ [z]) q = true)
    (hagz : h'.get z = (h.get z).map (fun nd => { nd with next := q' }))
    (hagi : ∀ x ∈ init, h'.get x = h.get x) :
    chain h' p (init ++ [z]) q' = true := by
  rw [chain] at hc ⊢
  rw [chainG_append] at hc ⊢
  rw [Bool.and_eq_true_iff] at hc
  obtain ⟨h1, h2⟩ := hc
  rw [chainG_cons] at h2
  obtain ⟨nd, hg, hp, hn, -⟩ := h2
  apply Bool.and_eq_true_iff.mpr
  constructor
  · rw [chainG_congr h h' _ _ init p (seamN [z] q') hagi]
    exact h1
  · rw [chainG_cons]
    refine ⟨{ nd with next := q' }, ?_, hp, rfl, chainG_nil _ _ _ _ _⟩
    rw [hagz, hg]; rfl

-- Specification of `list_add_head` on a well-formed list: it succeeds, and
-- the resulting list is well formed with the fresh node prepended.

theorem list_add_head_spec (h : Heap V) (l : ListT V) (as : List Nat) (v : V)
    (hwf : wfWith h l as = true) :
    (list_add_head h l v true).2.2 = true ∧
      wfWith (list_add_head h l v true).1 (list_add_head h l v true).2.1
        (h.nextAddr :: as) = true := by
  obtain ⟨hc, hh, ht, hlen, hnd, hb⟩ := (wfWith_iff h l as).mp hwf
  by_cases h0 : l.len = 0
  · have has : as = [] := List.length_eq_zero.mp (by rw [← hlen, h0])
    subst has
    have e : list_add_head h l v true =
        ((h.alloc ⟨none, none, v⟩).2,
         { l with head := some h.nextAddr, tail := some h.nextAddr,
                  len := l.len + 1 }, true) := by
      simp [list_add_head, h0, Heap.alloc]
    rw [e]
    refine ⟨rfl, (wfWith_iff _ _ _).mpr ⟨?_, rfl, rfl, by simp [h0], by simp, ?_⟩⟩
    · rw [chain, chainG_cons]
      exact ⟨⟨none, none, v⟩, by simp [Heap.get_alloc], rfl, rfl,
        chainG_nil _ _ _ _ _⟩
    · intro a ha
      rw [List.mem_singleton] at ha
      subst ha
      rw [Heap.nextAddr_alloc]
      omega
  · obtain ⟨A, rest, has⟩ : ∃ A rest, as = A :: rest := by
      cases as with
      | nil => exact absurd hlen (by simpa using h0)
      | cons A rest => exact ⟨A, rest, rfl⟩
    subst has
    have hhead : l.head = some A := by simpa using hh
    have e : list_add_head h l v true =
        (((h.alloc ⟨none, some A, v⟩).2).setPrev A (some h.nextAddr),
         { l with head := some h.nextAddr, len := l.len + 1 }, true) := by
      simp [list_add_head, h0, hhead, Heap.alloc]
    rw [e]
    have hAmem : A ∈ A :: rest := List.mem_cons_self A rest
    have hAn : A ≠ h.nextAddr := Nat.ne_of_lt (hb A hAmem)
    have h1get : ∀ x ∈ A :: rest,
        ((h.alloc ⟨none, some A, v⟩).2).get x = h.get x := by
      intro x hx
      rw [Heap.get_alloc, if_neg (Nat.ne_of_lt (hb x hx))]
    refine ⟨rfl, (wfWith_iff _ _ _).mpr ⟨?_, rfl, ?_, ?_, ?_, ?_⟩⟩
    · -- the new chain: fresh node, then the old chain with its head's
      -- back link rewired to the fresh node
      rw [chain, chainG_cons]
      refine ⟨⟨none, some A, v⟩, ?_, rfl, rfl, ?_⟩
      · rw [Heap.get_setPrev_ne _ _ _ _ (Ne.symm hAn), Heap.get_alloc,
          if_pos rfl]
      · refine chain_cons_prev h _ A rest none none (some h.nextAddr) hc ?_ ?_
        · rw [Heap.get_setPrev_self, h1get A hAmem]
        · intro x hx
          have hxmem : x ∈ A :: rest := List.mem_cons_of_mem _ hx
          have hxA : x ≠ A := fun hxa => (List.nodup_cons.mp hnd).1 (hxa ▸ hx)
          rw [Heap.get_setPrev_ne _ _ _ _ hxA, h1get x hxmem]
    · rw [ht, List.getLast?_cons_cons]
    · simp [hlen]
    · rw [List.nodup_cons]
      refine ⟨?_, hnd⟩
      intro hmem
      exact absurd rfl (Nat.ne_of_lt (hb _ hmem))
    · intro x hx
      rw [Heap.nextAddr_setPrev, Heap.nextAddr_alloc]
      rcases List.mem_cons.mp hx with h1 | h2
      · omega
      · have := hb x h2
        omega

-- Specification of `list_add` on a well-formed list: it succeeds, and the
-- resulting list is well formed with the fresh node appended.

theorem list_add_spec (h : Heap V) (l : ListT V) (as : List Nat) (v : V)
    (hwf : wfWith h l as = true) :
    (list_add h l v true).2.2 = true ∧
      wfWith (list_add h l v true).1 (list_add h l v true).2.1
        (as ++ [h.nextAddr]) = true := by
  obtain ⟨hc, hh, ht, hlen, hnd, hb⟩ := (wfWith_iff h l as).mp hwf
  by_cases h0 : l.len = 0
  · have has : as = [] := List.length_eq_zero.mp (by rw [← hlen, h0])
    subst has
    have e : list_add h l v true =
        ((h.alloc ⟨none, none, v⟩).2,
         { l with head := some h.nextAddr, tail := some h.nextAddr,
                  len := l.len + 1 }, true) := by
      simp [list_add, h0, Heap.alloc]
    rw [e]
    refine ⟨rfl, (wfWith_iff _ _ _).mpr ⟨?_, rfl, rfl, by simp [h0], by simp, ?_⟩⟩
    · rw [List.nil_append, chain, chainG_cons]
      exact ⟨⟨none, none, v⟩, by simp [Heap.get_alloc], rfl, rfl,
        chainG_nil _ _ _ _ _⟩
    · intro a ha
      rw [List.nil_append, List.mem_singleton] at ha
      subst ha
      rw [Heap.nextAddr_alloc]
      omega
  · obtain ⟨init, Z, has⟩ : ∃ init Z, as = init ++ [Z] := by
      rcases List.eq_nil_or_concat as with h1 | ⟨init, Z, h2⟩
      · exact absurd hlen (by simp [h1, h0])
      · exact ⟨init, Z, by simpa using h2⟩
    subst has
    have htail : l.tail = some Z := by rw [ht, List.getLast?_concat]
    have hZmem : Z ∈ init ++ [Z] := by simp
    have hZn : Z ≠ h.nextAddr := Nat.ne_of_lt (hb Z hZmem)
    have hZinit : Z ∉ init := by
      intro hmem
      exact List.disjoint_of_nodup_append hnd hmem (by simp)
    have e : list_add h l v true =
        (((h.alloc ⟨some Z, none, v⟩).2).setNext Z (some h.nextAddr),
         { l with tail := some h.nextAddr, len := l.len + 1 }, true) := by
      simp [list_add, h0, htail, Heap.alloc]
    rw [e]
    have h1get : ∀ x ∈ init ++ [Z],
        ((h.alloc ⟨some Z, none, v⟩).2).get x = h.get x := by
      intro x hx
      rw [Heap.get_alloc, if_neg (Nat.ne_of_lt (hb x hx))]
    have h2getZ : (((h.alloc ⟨some Z, none, v⟩).2).setNext Z
        (some h.nextAddr)).get Z =
        (h.get Z).map (fun nd => { nd with next := some h.nextAddr }) := by
      rw [Heap.get_setNext_self, h1get Z hZmem]
    have h2geti : ∀ x ∈ init,
        (((h.alloc ⟨some Z, none, v⟩).2).setNext Z
          (some h.nextAddr)).get x = h.get x := by
      intro x hx
      have hxZ : x ≠ Z := fun e => hZinit (e ▸ hx)
      rw [Heap.get_setNext_ne _ _ _ _ hxZ, h1get x (List.mem_append_left _ hx)]
    refine ⟨rfl, (wfWith_iff _ _ _).mpr ⟨?_, ?_, ?_, ?_, ?_, ?_⟩⟩
    · -- new chain: the old chain with its tail's forward link rewired to the
      -- fresh node, then the fresh node
      rw [chain, chainG_append, Bool.and_eq_true_iff]
      constructor
      · show chain _ none (init ++ [Z]) (seamN [h.nextAddr] none) = true
        exact chain_snoc_next h _ init Z none none (some h.nextAddr) hc
          h2getZ h2geti
      · rw [chainG_cons]
        refine ⟨⟨some Z, none, v⟩, ?_, ?_, rfl, chainG_nil _ _ _ _ _⟩
        · rw [Heap.get_setNext_ne _ _ _ _ (Ne.symm hZn), Heap.get_alloc,
            if_pos rfl]
        · show some Z = seamP none (init ++ [Z])
          rw [seamP_concat]
    · rw [hh]
      cases init <;> rfl
    · rw [List.getLast?_concat]
    · simp [hlen]
    · rw [List.append_assoc, List.nodup_append]
      refine ⟨(List.nodup_append.mp hnd).1, ?_, ?_⟩
      · simp
        intro e
        exact absurd e (Nat.ne_of_lt (hb Z hZmem))
      · intro x hx1 hx2
        have hxn : x < h.nextAddr := hb x (List.mem_append_left _ hx1)
        simp at hx2
        rcases hx2 with e | e <;> subst e
        · exact hZinit hx1
        · exact absurd rfl (Nat.ne_of_lt hxn)
    · intro x hx
      rw [Heap.nextAddr_setNext, Heap.nextAddr_alloc]
      rcases List.mem_append.mp hx with h1 | h2
      · have := hb x h1
        omega
      · rw [List.mem_singleton] at h2
        omega

theorem nodup_insert_node (l1 rest : List Nat) (n : Nat)
    (hnd : (l1 ++ rest).Nodup) (hn : n ∉ l1 ++ rest) :
    (l1 ++ n :: rest).Nodup := by
  rw [List.nodup_middle, List.nodup_cons]
  exact ⟨hn, hnd⟩

-- Specification of `list_insert` on a well-formed list, with the anchor
-- node a member of the list: it succeeds, and the fresh node is spliced
-- right after (or right before) the anchor.

theorem list_insert_after_spec (h : Heap V) (l : ListT V) (l1 l2 : List Nat)
    (anchor : Nat) (v : V)
    (hwf : wfWith h l (l1 ++ anchor :: l2) = true) :
    (list_insert h l anchor v true true).2.2 = true ∧
      wfWith (list_insert h l anchor v true true).1
        (list_insert h l anchor v true true).2.1
        (l1 ++ anchor :: h.nextAddr :: l2) = true := by
  obtain ⟨hc, hh, ht, hlen, hnd, hb⟩ := (wfWith_iff h l _).mp hwf
  rw [chain, chainG_append, Bool.and_eq_true_iff] at hc
  obtain ⟨C1, C2⟩ := hc
  rw [chainG_cons] at C2
  obtain ⟨ond, hga, hprev, hnext, C3⟩ := C2
  have hmem : anchor ∈ l1 ++ anchor :: l2 := by simp
  have hanchor_n : anchor ≠ h.nextAddr := Nat.ne_of_lt (hb anchor hmem)
  have hndmid := List.nodup_middle.mp hnd
  have hal12 : anchor ∉ l1 ++ l2 := (List.nodup_cons.mp hndmid).1
  have hnd12 : (l1 ++ l2).Nodup := (List.nodup_cons.mp hndmid).2
  have hal1 : anchor ∉ l1 := fun hx => hal12 (List.mem_append_left _ hx)
  have hal2 : anchor ∉ l2 := fun hx => hal12 (List.mem_append_right _ hx)
  have hdisj : l1.Disjoint l2 := (List.nodup_append.mp hnd12).2.2
  have hnfresh : ∀ x ∈ l1 ++ anchor :: l2, x ≠ h.nextAddr :=
    fun x hx => Nat.ne_of_lt (hb x hx)
  cases hl2 : l2 with
    | nil =>
      subst hl2
      have htails : l.tail = some anchor := by
        rw [ht, List.getLast?_concat]
      have hnext0 : ond.next = none := hnext
      have e : list_insert h l anchor v true true =
          (((h.alloc ⟨some anchor, none, v⟩).2).setNext anchor
             (some h.nextAddr),
           { l with tail := some h.nextAddr, len := l.len + 1 }, true) := by
        simp [list_insert, hga, hnext0, htails, Heap.alloc]
      rw [e]
      have h1get : ∀ x ∈ l1 ++ [anchor],
          ((h.alloc ⟨some anchor, none, v⟩).2).get x = h.get x := by
        intro x hx
        rw [Heap.get_alloc, if_neg (hnfresh x hx)]
      have h2getA : (((h.alloc ⟨some anchor, none, v⟩).2).setNext anchor
          (some h.nextAddr)).get anchor =
          some { ond with next := some h.nextAddr } := by
        rw [Heap.get_setNext_self, h1get anchor (by simp), hga]
        rfl
      have h2get1 : ∀ x ∈ l1,
          (((h.alloc ⟨some anchor, none, v⟩).2).setNext anchor
            (some h.nextAddr)).get x = h.get x := by
        intro x hx
        have hxa : x ≠ anchor := fun hxa => hal1 (hxa ▸ hx)
        rw [Heap.get_setNext_ne _ _ _ _ hxa,
          h1get x (List.mem_append_left _ hx)]
      refine ⟨rfl, (wfWith_iff _ _ _).mpr ⟨?_, ?_, ?_, ?_, ?_, ?_⟩⟩
      · rw [chain, chainG_append, Bool.and_eq_true_iff]
        constructor
        · rw [chainG_congr h _ _ _ l1 none _ h2get1]
          exact C1
        · rw [chainG_cons]
          refine ⟨{ ond with next := some h.nextAddr }, h2getA, hprev, rfl, ?_⟩
          rw [chainG_cons]
          refine ⟨⟨some anchor, none, v⟩, ?_, rfl, rfl, chainG_nil _ _ _ _ _⟩
          rw [Heap.get_setNext_ne _ _ _ _ (Ne.symm hanchor_n),
            Heap.get_alloc, if_pos rfl]
      · show l.head = _
        rw [hh, List.head?_append, List.head?_append]
        rfl
      · show some h.nextAddr = _
        have : l1 ++ anchor :: h.nextAddr :: ([] : List Nat) =
            (l1 ++ [anchor]) ++ [h.nextAddr] := by simp
        rw [this, List.getLast?_concat]
      · show l.len + 1 = _
        rw [hlen]
        simp only [List.length_append, List.length_cons]
        omega
      · have : l1 ++ anchor :: h.nextAddr :: ([] : List Nat) =
            (l1 ++ [anchor]) ++ h.nextAddr :: [] := by simp
        rw [this]
        apply nodup_insert_node
        · simpa using hnd
        · intro hx
          refine hnfresh h.nextAddr ?_ rfl
          simpa using hx
      · intro x hx
        rw [Heap.nextAddr_setNext, Heap.nextAddr_alloc]
        rcases List.mem_append.mp hx with h1 | h2
        · exact Nat.lt_succ_of_lt (hb x (List.mem_append_left _ h1))
        · rcases List.mem_cons.mp h2 with e | h3
          · subst e
            exact Nat.lt_succ_of_lt (hb x hmem)
          · rcases List.mem_cons.mp h3 with e | h4
            · subst e
              exact Nat.lt_succ_self _
            · cases h4
    | cons b u =>
      subst hl2
      obtain ⟨z, hz⟩ : ∃ z, (b :: u).getLast? = some z :=
        ⟨(b :: u).getLast (by simp), List.getLast?_eq_getLast _ _⟩
      have htailz : l.tail = some z := by
        rw [ht, List.getLast?_append, List.getLast?_cons_cons, hz]
        rfl
      have hzmem : z ∈ b :: u := List.mem_of_mem_getLast? hz
      have htne : ¬ l.tail = some anchor := by
        rw [htailz]
        intro e
        apply hal2
        have : z = anchor := by injection e
        exact this ▸ hzmem
      have hnextb : ond.next = some b := hnext
      have hba : b ≠ anchor := fun e => hal2 (e ▸ List.mem_cons_self b u)
      have hbn : b ≠ h.nextAddr :=
        hnfresh b (List.mem_append_right _ (List.mem_cons_of_mem _
          (List.mem_cons_self b u)))
      have e : list_insert h l anchor v true true =
          ((((h.alloc ⟨some anchor, some b, v⟩).2).setNext anchor
              (some h.nextAddr)).setPrev b (some h.nextAddr),
           { l with len := l.len + 1 }, true) := by
        simp [list_insert, hga, hnextb, htne, Heap.alloc]
      rw [e]
      have h1get : ∀ x ∈ l1 ++ anchor :: b :: u,
          ((h.alloc ⟨some anchor, some b, v⟩).2).get x = h.get x := by
        intro x hx
        rw [Heap.get_alloc, if_neg (hnfresh x hx)]
      have h3getA : ((((h.alloc ⟨some anchor, some b, v⟩).2).setNext anchor
          (some h.nextAddr)).setPrev b (some h.nextAddr)).get anchor =
          some { ond with next := some h.nextAddr } := by
        rw [Heap.get_setPrev_ne _ _ _ _ (Ne.symm hba),
          Heap.get_setNext_self, h1get anchor hmem, hga]
        rfl
      have h3getn : ((((h.alloc ⟨some anchor, some b, v⟩).2).setNext anchor
          (some h.nextAddr)).setPrev b (some h.nextAddr)).get h.nextAddr =
          some ⟨some anchor, some b, v⟩ := by
        rw [Heap.get_setPrev_ne _ _ _ _ (Ne.symm hbn),
          Heap.get_setNext_ne _ _ _ _ (Ne.symm hanchor_n),
          Heap.get_alloc, if_pos rfl]
      have h3getb : ((((h.alloc ⟨some anchor, some b, v⟩).2).setNext anchor
          (some h.nextAddr)).setPrev b (some h.nextAddr)).get b =
          (h.get b).map (fun nd => { nd with prev := some h.nextAddr }) := by
        rw [Heap.get_setPrev_self, Heap.get_setNext_ne _ _ _ _ hba,
          h1get b (List.mem_append_right _ (List.mem_cons_of_mem _
            (List.mem_cons_self b u)))]
      have h3get1 : ∀ x ∈ l1,
          ((((h.alloc ⟨some anchor, some b, v⟩).2).setNext anchor
            (some h.nextAddr)).setPrev b (some h.nextAddr)).get x =
            h.get x := by
        intro x hx
        have hxa : x ≠ anchor := fun hxa => hal1 (hxa ▸ hx)
        have hxb : x ≠ b := fun hxb =>
          hdisj (hxb ▸ hx) (List.mem_cons_self b u)
        rw [Heap.get_setPrev_ne _ _ _ _ hxb, Heap.get_setNext_ne _ _ _ _ hxa,
          h1get x (List.mem_append_left _ hx)]
      have h3getu : ∀ x ∈ u,
          ((((h.alloc ⟨some anchor, some b, v⟩).2).setNext anchor
            (some h.nextAddr)).setPrev b (some h.nextAddr)).get x =
            h.get x := by
        intro x hx
        have hxmem : x ∈ l1 ++ anchor :: b :: u :=
          List.mem_append_right _ (List.mem_cons_of_mem _
            (List.mem_cons_of_mem _ hx))
        have hxa : x ≠ anchor := fun hxa => hal2 (hxa ▸ List.mem_cons_of_mem _ hx)
        have hxb : x ≠ b := fun hxb =>
          (List.nodup_cons.mp ((List.nodup_append.mp hnd12).2.1)).1 (hxb ▸ hx)
        rw [Heap.get_setPrev_ne _ _ _ _ hxb, Heap.get_setNext_ne _ _ _ _ hxa,
          h1get x hxmem]
      refine ⟨rfl, (wfWith_iff _ _ _).mpr ⟨?_, ?_, ?_, ?_, ?_, ?_⟩⟩
      · rw [chain, chainG_append, Bool.and_eq_true_iff]
        constructor
        · rw [chainG_congr h _ _ _ l1 none _ h3get1]
          exact C1
        · rw [chainG_cons]
          refine ⟨{ ond with next := some h.nextAddr }, h3getA, hprev, rfl, ?_⟩
          rw [chainG_cons]
          refine ⟨⟨some anchor, some b, v⟩, h3getn, rfl, rfl, ?_⟩
          exact chain_cons_prev h _ b u (some anchor) none (some h.nextAddr)
            C3 h3getb h3getu
      · show l.head = _
        rw [hh, List.head?_append, List.head?_append]
        rfl
      · show l.tail = _
        rw [htailz, List.getLast?_append, List.getLast?_cons_cons,
          List.getLast?_cons_cons, hz]
        rfl
      · show l.len + 1 = _
        rw [hlen]
        simp only [List.length_append, List.length_cons]
        omega
      · have : l1 ++ anchor :: h.nextAddr :: b :: u =
            (l1 ++ [anchor]) ++ h.nextAddr :: (b :: u) := by simp
        rw [this]
        apply nodup_insert_node
        · simpa using hnd
        · intro hx
          refine hnfresh h.nextAddr ?_ rfl
          simpa using hx
      · intro x hx
        rw [Heap.nextAddr_setPrev, Heap.nextAddr_setNext, Heap.nextAddr_alloc]
        have : x ∈ l1 ++ anchor :: b :: u ∨ x = h.nextAddr := by
          simp at hx ⊢
          tauto
        rcases this with h1 | h2
        · exact Nat.lt_succ_of_lt (hb x h1)
        · subst h2
          exact Nat.lt_succ_self _

theorem list_insert_before_spec (h : Heap V) (l : ListT V) (l1 l2 : List Nat)
    (anchor : Nat) (v : V)
    (hwf : wfWith h l (l1 ++ anchor :: l2) = true) :
    (list_insert h l anchor v false true).2.2 = true ∧
      wfWith (list_insert h l anchor v false true).1
        (list_insert h l anchor v false true).2.1
        (l1 ++ h.nextAddr :: anchor :: l2) = true := by
  obtain ⟨hc, hh, ht, hlen, hnd, hb⟩ := (wfWith_iff h l _).mp hwf
  rw [chain, chainG_append, Bool.and_eq_true_iff] at hc
  obtain ⟨C1, C2⟩ := hc
  rw [chainG_cons] at C2
  obtain ⟨ond, hga, hprev, hnext, C3⟩ := C2
  have hmem : anchor ∈ l1 ++ anchor :: l2 := by simp
  have hanchor_n : anchor ≠ h.nextAddr := Nat.ne_of_lt (hb anchor hmem)
  have hndmid := List.nodup_middle.mp hnd
  have hal12 : anchor ∉ l1 ++ l2 := (List.nodup_cons.mp hndmid).1
  have hnd12 : (l1 ++ l2).Nodup := (List.nodup_cons.mp hndmid).2
  have hal1 : anchor ∉ l1 := fun hx => hal12 (List.mem_append_left _ hx)
  have hal2 : anchor ∉ l2 := fun hx => hal12 (List.mem_append_right _ hx)
  have hdisj : l1.Disjoint l2 := (List.nodup_append.mp hnd12).2.2
  have hnfresh : ∀ x ∈ l1 ++ anchor :: l2, x ≠ h.nextAddr :=
    fun x hx => Nat.ne_of_lt (hb x hx)
  rcases List.eq_nil_or_concat l1 with hl1 | ⟨L, zl, hl1⟩
  · subst hl1
    have hprev0 : ond.prev = none := hprev
    have hheads : l.head = some anchor := by rw [hh]; rfl
    have e : list_insert h l anchor v false true =
        (((h.alloc ⟨none, some anchor, v⟩).2).setPrev anchor
           (some h.nextAddr),
         { l with head := some h.nextAddr, len := l.len + 1 }, true) := by
      simp [list_insert, hga, hprev0, hheads, Heap.alloc]
    rw [e]
    have h1get : ∀ x ∈ anchor :: l2,
        ((h.alloc ⟨none, some anchor, v⟩).2).get x = h.get x := by
      intro x hx
      rw [Heap.get_alloc, if_neg (hnfresh x hx)]
    have h3getA : (((h.alloc ⟨none, some anchor, v⟩).2).setPrev anchor
        (some h.nextAddr)).get anchor =
        (h.get anchor).map (fun nd => { nd with prev := some h.nextAddr }) := by
      rw [Heap.get_setPrev_self, h1get anchor (List.mem_cons_self _ _)]
    have h3get2 : ∀ x ∈ l2,
        (((h.alloc ⟨none, some anchor, v⟩).2).setPrev anchor
          (some h.nextAddr)).get x = h.get x := by
      intro x hx
      have hxa : x ≠ anchor := fun hxa => hal2 (hxa ▸ hx)
      rw [Heap.get_setPrev_ne _ _ _ _ hxa,
        h1get x (List.mem_cons_of_mem _ hx)]
    refine ⟨rfl, (wfWith_iff _ _ _).mpr ⟨?_, rfl, ?_, ?_, ?_, ?_⟩⟩
    · rw [List.nil_append, chain, chainG_cons]
      refine ⟨⟨none, some anchor, v⟩, ?_, rfl, rfl, ?_⟩
      · rw [Heap.get_setPrev_ne _ _ _ _ (Ne.symm hanchor_n),
          Heap.get_alloc, if_pos rfl]
      · refine chain_cons_prev h _ anchor l2 none none (some h.nextAddr)
          ?_ h3getA h3get2
        rw [chain, chainG_cons]
        exact ⟨ond, hga, hprev0, hnext, C3⟩
    · show l.tail = _
      rw [ht, List.nil_append, List.nil_append, List.getLast?_cons_cons]
    · show l.len + 1 = _
      rw [hlen]
      simp only [List.length_append, List.length_cons, List.nil_append]
    · rw [List.nil_append]
      exact nodup_insert_node [] (anchor :: l2) h.nextAddr (by simpa using hnd)
        (by
          intro hx
          exact hnfresh h.nextAddr (by simpa using hx) rfl)
    · intro x hx
      rw [Heap.nextAddr_setPrev, Heap.nextAddr_alloc]
      rw [List.nil_append, List.mem_cons] at hx
      rcases hx with e1 | h2
      · subst e1
        exact Nat.lt_succ_self _
      · exact Nat.lt_succ_of_lt (hb x (by simpa using h2))
  · rw [List.concat_eq_append] at hl1
    subst hl1
    have hprevzl : ond.prev = some zl := by rw [hprev, seamP_concat]
    have hzl1 : zl ∈ L ++ [zl] := by simp
    have hzlmem : zl ∈ (L ++ [zl]) ++ anchor :: l2 := List.mem_append_left _ hzl1
    have hzln : zl ≠ h.nextAddr := hnfresh zl hzlmem
    have hzla : zl ≠ anchor := fun e1 => hal1 (e1 ▸ hzl1)
    obtain ⟨w, hw⟩ : ∃ w, (L ++ [zl]).head? = some w := by
      cases L with
      | nil => exact ⟨zl, rfl⟩
      | cons c m => exact ⟨c, rfl⟩
    have hwmem : w ∈ L ++ [zl] := List.mem_of_mem_head? hw
    have hheadw : l.head = some w := by
      rw [hh, List.head?_append, hw]
      rfl
    have hhne : ¬ l.head = some anchor := by
      rw [hheadw]
      intro e1
      have : w = anchor := by injection e1
      exact hal1 (this ▸ hwmem)
    have e : list_insert h l anchor v false true =
        ((((h.alloc ⟨some zl, some anchor, v⟩).2).setNext zl
            (some h.nextAddr)).setPrev anchor (some h.nextAddr),
         { l with len := l.len + 1 }, true) := by
      simp [list_insert, hga, hprevzl, hhne, Heap.alloc]
    rw [e]
    have h1get : ∀ x ∈ (L ++ [zl]) ++ anchor :: l2,
        ((h.alloc ⟨some zl, some anchor, v⟩).2).get x = h.get x := by
      intro x hx
      rw [Heap.get_alloc, if_neg (hnfresh x hx)]
    have h3getzl : ((((h.alloc ⟨some zl, some anchor, v⟩).2).setNext zl
        (some h.nextAddr)).setPrev anchor (some h.nextAddr)).get zl =
        (h.get zl).map (fun nd => { nd with next := some h.nextAddr }) := by
      rw [Heap.get_setPrev_ne _ _ _ _ hzla, Heap.get_setNext_self,
        h1get zl hzlmem]
    have h3getA : ((((h.alloc ⟨some zl, some anchor, v⟩).2).setNext zl
        (some h.nextAddr)).setPrev anchor (some h.nextAddr)).get anchor =
        some { ond with prev := some h.nextAddr } := by
      rw [Heap.get_setPrev_self, Heap.get_setNext_ne _ _ _ _ (Ne.symm hzla),
        h1get anchor hmem, hga]
      rfl
    have h3getn : ((((h.alloc ⟨some zl, some anchor, v⟩).2).setNext zl
        (some h.nextAddr)).setPrev anchor (some h.nextAddr)).get h.nextAddr =
        some ⟨some zl, some anchor, v⟩ := by
      rw [Heap.get_setPrev_ne _ _ _ _ (Ne.symm hanchor_n),
        Heap.get_setNext_ne _ _ _ _ (Ne.symm hzln), Heap.get_alloc, if_pos rfl]
    have h3getL : ∀ x ∈ L,
        ((((h.alloc ⟨some zl, some anchor, v⟩).2).setNext zl
          (some h.nextAddr)).setPrev anchor (some h.nextAddr)).get x =
          h.get x := by
      intro x hx
      have hxmem : x ∈ L ++ [zl] := List.mem_append_left _ hx
      have hxa : x ≠ anchor := fun e1 => hal1 (e1 ▸ hxmem)
      have hxzl : x ≠ zl := fun e1 => by
        have := List.disjoint_of_nodup_append (List.nodup_append.mp hnd12).1
        exact this hx (by simp [e1])
      rw [Heap.get_setPrev_ne _ _ _ _ hxa, Heap.get_setNext_ne _ _ _ _ hxzl,
        h1get x (List.mem_append_left _ hxmem)]
    have h3get2 : ∀ x ∈ l2,
        ((((h.alloc ⟨some zl, some anchor, v⟩).2).setNext zl
          (some h.nextAddr)).setPrev anchor (some h.nextAddr)).get x =
          h.get x := by
      intro x hx
      have hxa : x ≠ anchor := fun e1 => hal2 (e1 ▸ hx)
      have hxzl : x ≠ zl := fun e1 => hdisj (e1 ▸ hzl1) hx
      rw [Heap.get_setPrev_ne _ _ _ _ hxa, Heap.get_setNext_ne _ _ _ _ hxzl,
        h1get x (List.mem_append_right _ (List.mem_cons_of_mem _ hx))]
    refine ⟨rfl, (wfWith_iff _ _ _).mpr ⟨?_, ?_, ?_, ?_, ?_, ?_⟩⟩
    · rw [chain, chainG_append, Bool.and_eq_true_iff]
      constructor
      · exact chain_snoc_next h _ L zl none _ (some h.nextAddr) C1
          h3getzl h3getL
      · rw [chainG_cons]
        refine ⟨⟨some zl, some anchor, v⟩, h3getn, ?_, rfl, ?_⟩
        · rw [seamP_concat]
        · rw [chainG_cons]
          refine ⟨{ ond with prev := some h.nextAddr }, h3getA, rfl, hnext, ?_⟩
          rw [chainG_congr h _ _ _ l2 (some anchor) none h3get2]
          exact C3
    · show l.head = _
      rw [hheadw, List.head?_append, hw]
      rfl
    · show l.tail = _
      rw [ht, List.getLast?_append_cons, List.getLast?_append_cons,
        List.getLast?_cons_cons]
    · show l.len + 1 = _
      rw [hlen]
      simp only [List.length_append, List.length_cons]
      omega
    · exact nodup_insert_node (L ++ [zl]) (anchor :: l2) h.nextAddr hnd
        (by
          intro hx
          exact hnfresh h.nextAddr hx rfl)
    · intro x hx
      rw [Heap.nextAddr_setPrev, Heap.nextAddr_setNext, Heap.nextAddr_alloc]
      have : x ∈ (L ++ [zl]) ++ anchor :: l2 ∨ x = h.nextAddr := by
        simp at hx ⊢
        tauto
      rcases this with h1 | h2
      · exact Nat.lt_succ_of_lt (hb x h1)
      · subst h2
        exact Nat.lt_succ_self _

-- Specification of `list_remove` on a well-formed list, with the removed
-- node a member of the list: the resulting list is well formed with that
-- node unlinked and released.

theorem list_remove_spec (h : Heap V) (l : ListT V) (l1 l2 : List Nat)
    (a : Nat) (hwf : wfWith h l (l1 ++ a :: l2) = true) :
    wfWith (list_remove h l a).1 (list_remove h l a).2.1 (l1 ++ l2) = true := by
  obtain ⟨hc, hh, ht, hlen, hnd, hb⟩ := (wfWith_iff h l _).mp hwf
  rw [chain, chainG_append, Bool.and_eq_true_iff] at hc
  obtain ⟨C1, C2⟩ := hc
  rw [chainG_cons] at C2
  obtain ⟨nda, hga, hprev, hnext, C3⟩ := C2
  have hmem : a ∈ l1 ++ a :: l2 := by simp
  have hndmid := List.nodup_middle.mp hnd
  have hal12 : a ∉ l1 ++ l2 := (List.nodup_cons.mp hndmid).1
  have hnd12 : (l1 ++ l2).Nodup := (List.nodup_cons.mp hndmid).2
  have hal1 : a ∉ l1 := fun hx => hal12 (List.mem_append_left _ hx)
  have hal2 : a ∉ l2 := fun hx => hal12 (List.mem_append_right _ hx)
  have hdisj : l1.Disjoint l2 := (List.nodup_append.mp hnd12).2.2
  rcases List.eq_nil_or_concat l1 with hl1 | ⟨L, zl, hl1⟩
  · subst hl1
    have hprev0 : nda.prev = none := hprev
    cases hl2 : l2 with
    | nil =>
      subst hl2
      have hnext0 : nda.next = none := hnext
      have e1 : (list_remove h l a).1 = h.free a := by
        simp [list_remove, hga, hprev0, hnext0]
      have e2 : (list_remove h l a).2.1 =
          { l with head := none, tail := none, len := l.len - 1 } := by
        simp [list_remove, hga, hprev0, hnext0]
      rw [e1, e2]
      refine (wfWith_iff _ _ _).mpr ⟨chainG_nil _ _ _ _ _, rfl, rfl, ?_,
        List.nodup_nil, by intro x hx; cases hx⟩
      rw [hlen]
      rfl
    | cons b u =>
      subst hl2
      have hnextb : nda.next = some b := hnext
      have hba : b ≠ a := fun e =>
        hal2 (e ▸ List.mem_cons_self b u)
      have e1 : (list_remove h l a).1 = (h.setPrev b none).free a := by
        simp [list_remove, hga, hprev0, hnextb]
      have e2 : (list_remove h l a).2.1 =
          { l with head := some b, len := l.len - 1 } := by
        simp [list_remove, hga, hprev0, hnextb]
      rw [e1, e2]
      have hgetb : ((h.setPrev b none).free a).get b =
          (h.get b).map (fun nd => { nd with prev := none }) := by
        rw [Heap.get_free, if_neg hba, Heap.get_setPrev_self]
      have hgetu : ∀ x ∈ u, ((h.setPrev b none).free a).get x = h.get x := by
        intro x hx
        have hxa : x ≠ a := fun e => hal2 (e ▸ List.mem_cons_of_mem _ hx)
        have hxb : x ≠ b := fun e =>
          (List.nodup_cons.mp (by simpa using hnd12)).1 (e ▸ hx)
        rw [Heap.get_free, if_neg hxa, Heap.get_setPrev_ne _ _ _ _ hxb]
      refine (wfWith_iff _ _ _).mpr ⟨?_, rfl, ?_, ?_, by simpa using hnd12, ?_⟩
      · exact chain_cons_prev h _ b u (some a) none none C3 hgetb hgetu
      · show l.tail = _
        rw [ht]
        rfl
      · show l.len - 1 = _
        rw [hlen]
        rfl
      · intro x hx
        rw [Heap.nextAddr_free, Heap.nextAddr_setPrev]
        exact hb x (by simpa using List.mem_cons_of_mem a hx)
  · rw [List.concat_eq_append] at hl1
    subst hl1
    have hprevzl : nda.prev = some zl := by rw [hprev, seamP_concat]
    have hzl1 : zl ∈ L ++ [zl] := by simp
    have hzla : zl ≠ a := fun e => hal1 (e ▸ hzl1)
    obtain ⟨w, hw⟩ : ∃ w, (L ++ [zl]).head? = some w := by
      cases L with
      | nil => exact ⟨zl, rfl⟩
      | cons c m => exact ⟨c, rfl⟩
    cases hl2 : l2 with
    | nil =>
      subst hl2
      have hnext0 : nda.next = none := hnext
      have e1 : (list_remove h l a).1 = (h.setNext zl none).free a := by
        simp [list_remove, hga, hprevzl, hnext0]
      have e2 : (list_remove h l a).2.1 =
          { l with tail := some zl, len := l.len - 1 } := by
        simp [list_remove, hga, hprevzl, hnext0]
      rw [e1, e2]
      have hgetzl : ((h.setNext zl none).free a).get zl =
          (h.get zl).map (fun nd => { nd with next := none }) := by
        rw [Heap.get_free, if_neg hzla, Heap.get_setNext_self]
      have hgetL : ∀ x ∈ L, ((h.setNext zl none).free a).get x = h.get x := by
        intro x hx
        have hxa : x ≠ a := fun e => hal1 (e ▸ List.mem_append_left _ hx)
        have hxzl : x ≠ zl := fun e =>
          List.disjoint_of_nodup_append (by simpa using hnd12) hx (by simp [e])
        rw [Heap.get_free, if_neg hxa, Heap.get_setNext_ne _ _ _ _ hxzl]
      refine (wfWith_iff _ _ _).mpr ⟨?_, ?_, ?_, ?_, by simpa using hnd12, ?_⟩
      · rw [List.append_nil]
        exact chain_snoc_next h _ L zl none _ none C1 hgetzl hgetL
      · show l.head = _
        rw [hh, List.head?_append, hw, List.head?_append, hw]
        rfl
      · show some zl = _
        rw [List.append_nil, List.getLast?_concat]
      · show l.len - 1 = _
        rw [hlen]
        simp only [List.length_append, List.length_cons, List.append_nil,
          List.length_nil]
        omega
      · intro x hx
        rw [Heap.nextAddr_free, Heap.nextAddr_setNext]
        exact hb x (by
          rw [List.append_nil] at hx
          exact List.mem_append_left _ hx)
    | cons b u =>
      subst hl2
      have hnextb : nda.next = some b := hnext
      have hba : b ≠ a := fun e => hal2 (e ▸ List.mem_cons_self b u)
      have hbzl : b ≠ zl := fun e =>
        hdisj (e ▸ hzl1) (List.mem_cons_self b u)
      have e1 : (list_remove h l a).1 =
          ((h.setNext zl (some b)).setPrev b (some zl)).free a := by
        simp [list_remove, hga, hprevzl, hnextb]
      have e2 : (list_remove h l a).2.1 = { l with len := l.len - 1 } := by
        simp [list_remove, hga, hprevzl, hnextb]
      rw [e1, e2]
      have hgetzl : (((h.setNext zl (some b)).setPrev b (some zl)).free a).get
          zl = (h.get zl).map (fun nd => { nd with next := some b }) := by
        rw [Heap.get_free, if_neg hzla,
          Heap.get_setPrev_ne _ _ _ _ (Ne.symm hbzl), Heap.get_setNext_self]
      have hgetb : (((h.setNext zl (some b)).setPrev b (some zl)).free a).get
          b = (h.get b).map (fun nd => { nd with prev := some zl }) := by
        rw [Heap.get_free, if_neg hba, Heap.get_setPrev_self,
          Heap.get_setNext_ne _ _ _ _ hbzl]
      have hgetL : ∀ x ∈ L,
          (((h.setNext zl (some b)).setPrev b (some zl)).free a).get x =
            h.get x := by
        intro x hx
        have hxmem : x ∈ L ++ [zl] := List.mem_append_left _ hx
        have hxa : x ≠ a := fun e => hal1 (e ▸ hxmem)
        have hxzl : x ≠ zl := fun e =>
          List.disjoint_of_nodup_append
            ((List.nodup_append.mp hnd12).1) hx (by simp [e])
        have hxb : x ≠ b := fun e =>
          hdisj (e ▸ hxmem) (List.mem_cons_self b u)
        rw [Heap.get_free, if_neg hxa, Heap.get_setPrev_ne _ _ _ _ hxb,
          Heap.get_setNext_ne _ _ _ _ hxzl]
      have hgetu : ∀ x ∈ u,
          (((h.setNext zl (some b)).setPrev b (some zl)).free a).get x =
            h.get x := by
        intro x hx
        have hxa : x ≠ a := fun e => hal2 (e ▸ List.mem_cons_of_mem _ hx)
        have hxzl : x ≠ zl := fun e =>
          hdisj (e ▸ hzl1) (List.mem_cons_of_mem _ hx)
        have hxb : x ≠ b := fun e =>
          (List.nodup_cons.mp ((List.nodup_append.mp hnd12).2.1)).1 (e ▸ hx)
        rw [Heap.get_free, if_neg hxa, Heap.get_setPrev_ne _ _ _ _ hxb,
          Heap.get_setNext_ne _ _ _ _ hxzl]
      refine (wfWith_iff _ _ _).mpr ⟨?_, ?_, ?_, ?_, hnd12, ?_⟩
      · rw [chain, chainG_append, Bool.and_eq_true_iff]
        constructor
        · show chainG _ _ _ none (L ++ [zl]) (seamN (b :: u) none) = true
          exact chain_snoc_next h _ L zl none _ (some b) C1 hgetzl hgetL
        · show chainG _ _ _ (seamP none (L ++ [zl])) (b :: u) none = true
          have : seamP none (L ++ [zl]) = some zl := seamP_concat _ _ _
          rw [this]
          exact chain_cons_prev h _ b u (some a) none (some zl) C3 hgetb hgetu
      · show l.head = _
        rw [hh, List.head?_append, hw, List.head?_append, hw]
        rfl
      · show l.tail = _
        rw [ht, List.getLast?_append_cons, List.getLast?_append_cons,
          List.getLast?_cons_cons]
      · show l.len - 1 = _
        rw [hlen]
        simp only [List.length_append, List.length_cons]
        omega
      · intro x hx
        rw [Heap.nextAddr_free, Heap.nextAddr_setPrev, Heap.nextAddr_setNext]
        apply hb
        rcases List.mem_append.mp hx with h1 | h2
        · exact List.mem_append_left _ h1
        · exact List.mem_append_right _ (List.mem_cons_of_mem _ h2)

theorem Heap.valueAt_setPrev (h : Heap V) (a : Nat) (p : Option Nat)
    (x : Nat) : valueAt (h.setPrev a p) x = valueAt h x := by
  rcases eq_or_ne x a with e | e
  · subst e
    unfold valueAt
    rw [Heap.get_setPrev_self]
    cases h.get x <;> rfl
  · unfold valueAt
    rw [Heap.get_setPrev_ne _ _ _ _ e]

theorem Heap.valueAt_setNext (h : Heap V) (a : Nat) (n : Option Nat)
    (x : Nat) : valueAt (h.setNext a n) x = valueAt h x := by
  rcases eq_or_ne x a with e | e
  · subst e
    unfold valueAt
    rw [Heap.get_setNext_self]
    cases h.get x <;> rfl
  · unfold valueAt
    rw [Heap.get_setNext_ne _ _ _ _ e]

-- Specification of `list_rotate` on a well-formed list: the address chain is
-- rotated (last node becomes first), no value changes, no node is allocated
-- or freed, the length and the callbacks are untouched, and every node other
-- than the front node, the back node and the back node's predecessor keeps
-- its full record (both links and value) unchanged.

theorem list_rotate_spec (h : Heap V) (l : ListT V) (as : List Nat)
    (hwf : wfWith h l as = true) :
    wfWith (list_rotate h l).1 (list_rotate h l).2 (rotAbs as) = true ∧
    (∀ x, valueAt (list_rotate h l).1 x = valueAt h x) ∧
    (∀ x, (((list_rotate h l).1).get x).isSome = (h.get x).isSome) ∧
    (list_rotate h l).1.nextAddr = h.nextAddr ∧
    (list_rotate h l).2.len = l.len ∧
    (list_rotate h l).2.dup = l.dup ∧
    (list_rotate h l).2.free = l.free ∧
    (list_rotate h l).2.match_ = l.match_ ∧
    (∀ x, as.head? ≠ some x → as.getLast? ≠ some x →
      as.dropLast.getLast? ≠ some x →
      ((list_rotate h l).1).get x = h.get x) := by
  obtain ⟨hc, hh, ht, hlen, hnd, hb⟩ := (wfWith_iff h l as).mp hwf
  by_cases hle : l.len ≤ 1
  · have e : list_rotate h l = (h, l) := by
      simp [list_rotate, hle]
    have hra : rotAbs as = as := by
      cases as with
      | nil => rfl
      | cons x xs =>
        cases xs with
        | nil => simp [rotAbs]
        | cons y ys =>
          rw [hlen] at hle
          simp at hle
    rw [e, hra]
    exact ⟨hwf, fun x => rfl, fun x => rfl, rfl, rfl, rfl, rfl, rfl,
      fun x _ _ _ => rfl⟩
  · -- at least two nodes: the chain is A :: mid ++ [t]
    obtain ⟨init, t, has⟩ : ∃ init t, as = init ++ [t] := by
      rcases List.eq_nil_or_concat as with h1 | ⟨init, t, h2⟩
      · rw [h1] at hlen
        exact absurd hlen (by intro e; rw [e] at hle; exact hle (by simp))
      · exact ⟨init, t, by simpa using h2⟩
    subst has
    obtain ⟨A, mid, hinit⟩ : ∃ A mid, init = A :: mid := by
      cases init with
      | nil =>
        rw [hlen] at hle
        exact absurd (by simp : ([] ++ [t] : List Nat).length ≤ 1) (by
          intro e
          exact hle e)
      | cons A mid => exact ⟨A, mid, rfl⟩
    subst hinit
    have htail : l.tail = some t := by rw [ht, List.getLast?_concat]
    have hhead : l.head = some A := by rw [hh]; rfl
    -- decompose the chain
    rw [chain, chainG_append, Bool.and_eq_true_iff] at hc
    obtain ⟨C1, C2⟩ := hc
    rw [chainG_cons] at C2
    obtain ⟨tnd, hgt, htprev, htnext, -⟩ := C2
    -- the second-to-last node
    obtain ⟨init2, zl, hzl⟩ : ∃ init2 zl, A :: mid = init2 ++ [zl] := by
      rcases List.eq_nil_or_concat (A :: mid) with h1 | ⟨init2, zl, h2⟩
      · cases h1
      · exact ⟨init2, zl, by simpa using h2⟩
    have htprevzl : tnd.prev = some zl := by
      rw [htprev, hzl, seamP_concat]
    -- distinctness facts
    have htA : t ∉ A :: mid := by
      intro hmem
      exact List.disjoint_of_nodup_append hnd hmem (by simp)
    have hzlmem : zl ∈ A :: mid := by rw [hzl]; simp
    have hzlt : zl ≠ t := fun e => htA (e ▸ hzlmem)
    have hndAm : (A :: mid).Nodup := (List.nodup_append.mp hnd).1
    have hAmid : A ∉ mid := (List.nodup_cons.mp hndAm).1
    have hAt : A ≠ t := fun e => htA (e ▸ List.mem_cons_self A mid)
    have e : list_rotate h l =
        ((((h.setNext zl none).setPrev A (some t)).setPrev t none).setNext t
           (some A),
         { l with head := some t, tail := some zl }) := by
      simp [list_rotate, hle, htail, hgt, htprevzl, hhead]
    rw [e]
    -- the rotated chain
    have hrot : rotAbs ((A :: mid) ++ [t]) = t :: A :: mid := by
      simp only [rotAbs, List.getLast?_concat, List.dropLast_concat]
    rw [hrot]
    -- heap read-back facts
    have hget_t : ((((h.setNext zl none).setPrev A (some t)).setPrev t
        none).setNext t (some A)).get t = some ⟨none, some A, tnd.value⟩ := by
      rw [Heap.get_setNext_self, Heap.get_setPrev_self,
        Heap.get_setPrev_ne _ _ _ _ (Ne.symm hAt),
        Heap.get_setNext_ne _ _ _ _ (Ne.symm hzlt), hgt]
      rfl
    have hget_nt : ∀ x, x ≠ t →
        ((((h.setNext zl none).setPrev A (some t)).setPrev t none).setNext t
          (some A)).get x = ((h.setNext zl none).setPrev A (some t)).get x := by
      intro x hx
      rw [Heap.get_setNext_ne _ _ _ _ hx, Heap.get_setPrev_ne _ _ _ _ hx]
    have hget_A : ((h.setNext zl none).setPrev A (some t)).get A =
        ((h.setNext zl none).get A).map (fun nd => { nd with prev := some t }) :=
      Heap.get_setPrev_self _ _ _
    have hget_mid : ∀ x ∈ mid,
        ((h.setNext zl none).setPrev A (some t)).get x =
          (h.setNext zl none).get x := by
      intro x hx
      exact Heap.get_setPrev_ne _ _ _ _ (fun e1 => hAmid (e1 ▸ hx))
    -- step one: the old chain with the second-to-last node's forward link
    -- cut, in heap `h.setNext zl none`
    have D1 : chain (h.setNext zl none) none (A :: mid) none = true := by
      have C1' : chain h none (init2 ++ [zl]) (some t) = true := by
        rw [← hzl]
        exact C1
      have D1' := chain_snoc_next h (h.setNext zl none) init2 zl none
        (some t) none C1' (Heap.get_setNext_self _ _ _)
        (by
          intro x hx
          have hxzl : x ≠ zl := fun e1 => by
            have hzl2 : zl ∉ init2 := by
              have := hzl ▸ hndAm
              exact (List.nodup_append.mp this).2.2.symm (by simp)
            exact hzl2 (e1 ▸ hx)
          exact Heap.get_setNext_ne _ _ _ _ hxzl)
      rw [← hzl] at D1'
      exact D1'
    -- step two: rewire the old head's back link to the old tail
    have D2 : chain ((((h.setNext zl none).setPrev A (some t)).setPrev t
        none).setNext t (some A)) (some t) (A :: mid) none = true := by
      apply chain_cons_prev (h.setNext zl none) _ A mid none none (some t) D1
      · rw [hget_nt A hAt, hget_A]
      · intro x hx
        have hxt : x ≠ t := fun e1 => htA (e1 ▸ List.mem_cons_of_mem _ hx)
        rw [hget_nt x hxt, hget_mid x hx]
    refine ⟨(wfWith_iff _ _ _).mpr ⟨?_, rfl, ?_, ?_, ?_, ?_⟩, ?_, ?_, ?_,
      rfl, rfl, rfl, rfl, ?_⟩
    · rw [chain, chainG_cons]
      exact ⟨⟨none, some A, tnd.value⟩, hget_t, rfl, rfl, D2⟩
    · show some zl = _
      rw [List.getLast?_cons_cons, hzl, List.getLast?_concat]
    · show l.len = _
      rw [hlen]
      simp
    · have hperm : ((A :: mid) ++ [t]).Perm (t :: A :: mid) :=
        List.perm_append_singleton t (A :: mid)
      exact hperm.nodup hnd
    · intro x hx
      rw [Heap.nextAddr_setNext, Heap.nextAddr_setPrev, Heap.nextAddr_setPrev,
        Heap.nextAddr_setNext]
      apply hb
      rcases List.mem_cons.mp hx with e1 | h2
      · subst e1
        simp
      · exact List.mem_append_left _ h2
    · intro x
      rw [Heap.valueAt_setNext, Heap.valueAt_setPrev, Heap.valueAt_setPrev,
        Heap.valueAt_setNext]
    · intro x
      rw [Heap.isSome_setNext, Heap.isSome_setPrev, Heap.isSome_setPrev,
        Heap.isSome_setNext]
    · rw [Heap.nextAddr_setNext, Heap.nextAddr_setPrev, Heap.nextAddr_setPrev,
        Heap.nextAddr_setNext]
    · -- every node other than the old front, the old back and the new back
      -- keeps its record untouched
      intro x hx1 hx2 hx3
      have hxA : x ≠ A := by
        intro e1
        subst e1
        exact hx1 rfl
      have hxt : x ≠ t := by
        intro e1
        subst e1
        rw [List.getLast?_concat] at hx2
        exact hx2 rfl
      have hxzl : x ≠ zl := by
        intro e1
        subst e1
        rw [List.dropLast_concat, hzl, List.getLast?_concat] at hx3
        exact hx3 rfl
      rw [Heap.get_setNext_ne _ _ _ _ hxt, Heap.get_setPrev_ne _ _ _ _ hxt,
        Heap.get_setPrev_ne _ _ _ _ hxA, Heap.get_setNext_ne _ _ _ _ hxzl]

-- Traversal recovery: on a well-formed list the forward traversal from the
-- head yields exactly the address chain, and the backward traversal from the
-- tail yields its reverse.

theorem fwdAddrs_of_wfWith (h : Heap V) (l : ListT V) (as : List Nat)
    (hwf : wfWith h l as = true) (fuel : Nat) (hf : as.length ≤ fuel) :
    fwdAddrs h fuel l.head = as := by
  obtain ⟨hc, hh, -, -, -, -⟩ := (wfWith_iff h l as).mp hwf
  rw [fwdAddrs, hh]
  exact spine_of_chainG h _ _ as none fuel hc hf

theorem bwdAddrs_of_wfWith (h : Heap V) (l : ListT V) (as : List Nat)
    (hwf : wfWith h l as = true) (fuel : Nat) (hf : as.length ≤ fuel) :
    bwdAddrs h fuel l.tail = as.reverse := by
  obtain ⟨hc, -, ht, -, -, -⟩ := (wfWith_iff h l as).mp hwf
  have hrev := chainG_reverse h _ _ as none none hc
  rw [bwdAddrs, ht, ← List.head?_reverse]
  exact spine_of_chainG h _ _ as.reverse none fuel hrev (by simpa using hf)

theorem wf_of_wfWith (h : Heap V) (l : ListT V) (as : List Nat)
    (hwf : wfWith h l as = true) : wf h l = true := by
  obtain ⟨-, -, -, hlen, -, -⟩ := (wfWith_iff h l as).mp hwf
  rw [wf, fwdAddrs_of_wfWith h l as hwf l.len (le_of_eq hlen.symm)]
  exact hwf

-- `list_index` against positional lookup in the address chain.

theorem list_index_spec (h : Heap V) (l : ListT V) (as : List Nat)
    (hwf : wfWith h l as = true) (p : Int) :
    list_index h l p =
      (if 0 ≤ p then as[p.toNat]? else as.reverse[((-p) - 1).toNat]?) := by
  obtain ⟨hc, hh, ht, -, -, -⟩ := (wfWith_iff h l as).mp hwf
  unfold list_index
  by_cases hp : p < 0
  · rw [if_pos hp, if_neg (by omega)]
    have hrev := chainG_reverse h _ _ as none none hc
    rw [ht, ← List.head?_reverse]
    exact walkBy_of_chainG h _ _ as.reverse none _ hrev
  · rw [if_neg hp, if_pos (by omega)]
    rw [hh]
    exact walkBy_of_chainG h _ _ as none _ hc

theorem list_index_mem (h : Heap V) (l : ListT V) (as : List Nat)
    (hwf : wfWith h l as = true) (p : Nat) (a : Nat)
    (hidx : list_index h l (p : Int) = some a) :
    ∃ s t, as = s ++ a :: t := by
  rw [list_index_spec h l as hwf, if_pos (by omega)] at hidx
  exact List.append_of_mem (List.getElem?_mem hidx)

-- Preservation of well-formedness along every operation sequence.

theorem stateWF_init : ∃ as, wfWith (initState V).1 (initState V).2 as = true :=
  ⟨[], rfl⟩

theorem stateWF_applyOp (s : Heap V × ListT V) (op : Op V)
    (hs : ∃ as, wfWith s.1 s.2 as = true) :
    ∃ as, wfWith (applyOp s op).1 (applyOp s op).2 as = true := by
  obtain ⟨as, hwf⟩ := hs
  cases op with
  | addFront ok v =>
    cases ok with
    | false => exact ⟨as, hwf⟩
    | true => exact ⟨s.1.nextAddr :: as, (list_add_head_spec s.1 s.2 as v hwf).2⟩
  | addBack ok v =>
    cases ok with
    | false => exact ⟨as, hwf⟩
    | true => exact ⟨as ++ [s.1.nextAddr], (list_add_spec s.1 s.2 as v hwf).2⟩
  | insertAt ok pos after v =>
    show ∃ bs, wfWith (applyOp s (.insertAt ok pos after v)).1
      (applyOp s (.insertAt ok pos after v)).2 bs = true
    cases hidx : list_index s.1 s.2 (pos : Int) with
    | none =>
      refine ⟨as, ?_⟩
      simp only [applyOp, hidx]
      exact hwf
    | some a =>
      obtain ⟨s1, t1, hdecomp⟩ := list_index_mem s.1 s.2 as hwf pos a hidx
      subst hdecomp
      cases ok with
      | false =>
        refine ⟨s1 ++ a :: t1, ?_⟩
        simp only [applyOp, hidx]
        exact hwf
      | true =>
        cases after with
        | true =>
          refine ⟨s1 ++ a :: s.1.nextAddr :: t1, ?_⟩
          simp only [applyOp, hidx]
          exact (list_insert_after_spec s.1 s.2 s1 t1 a v hwf).2
        | false =>
          refine ⟨s1 ++ s.1.nextAddr :: a :: t1, ?_⟩
          simp only [applyOp, hidx]
          exact (list_insert_before_spec s.1 s.2 s1 t1 a v hwf).2
  | removeAt pos =>
    show ∃ bs, wfWith (applyOp s (.removeAt pos)).1
      (applyOp s (.removeAt pos)).2 bs = true
    cases hidx : list_index s.1 s.2 (pos : Int) with
    | none =>
      refine ⟨as, ?_⟩
      simp only [applyOp, hidx]
      exact hwf
    | some a =>
      obtain ⟨s1, t1, hdecomp⟩ := list_index_mem s.1 s.2 as hwf pos a hidx
      subst hdecomp
      refine ⟨s1 ++ t1, ?_⟩
      simp only [applyOp, hidx]
      exact list_remove_spec s.1 s.2 s1 t1 a hwf
  | rot =>
    exact ⟨rotAbs as, (list_rotate_spec s.1 s.2 as hwf).1⟩

theorem stateWF_foldl (ops : List (Op V)) :
    ∀ (s : Heap V × ListT V), (∃ as, wfWith s.1 s.2 as = true) →
      ∃ as, wfWith (ops.foldl applyOp s).1 (ops.foldl applyOp s).2 as = true := by
  induction ops with
  | nil => intro s hs; exact hs
  | cons op rest ih =>
    intro s hs
    exact ih (applyOp s op) (stateWF_applyOp s op hs)

theorem stateWF_runOps (ops : List (Op V)) :
    ∃ as, wfWith (runOps ops).1 (runOps ops).2 as = true :=
  stateWF_foldl ops (initState V) stateWF_init

theorem invariants_of_wfWith (h : Heap V) (l : ListT V) (as : List Nat)
    (hwf : wfWith h l as = true) : invariants h l := by
  obtain ⟨-, hh, ht, hlen, -, -⟩ := (wfWith_iff h l as).mp hwf
  have hfwd : fwdAddrs h (l.len + 1) l.head = as :=
    fwdAddrs_of_wfWith h l as hwf (l.len + 1) (by omega)
  have hbwd : bwdAddrs h (l.len + 1) l.tail = as.reverse :=
    bwdAddrs_of_wfWith h l as hwf (l.len + 1) (by omega)
  refine ⟨?_, ?_, ?_, ?_⟩
  · rw [hfwd, hlen]
  · rw [hfwd, hbwd]
  · intro h0
    rw [h0] at hlen
    have : as = [] := List.length_eq_zero.mp hlen.symm
    subst this
    exact ⟨hh, ht⟩
  · intro ⟨h1, h2⟩
    rw [h1] at hh
    cases as with
    | nil => exact hlen
    | cons x xs => cases hh

-- Rotation as a pure list operation.

theorem rotAbs_length (as : List Nat) : (rotAbs as).length = as.length := by
  rcases List.eq_nil_or_concat as with h1 | ⟨init, z, h2⟩
  · subst h1; rfl
  · rw [List.concat_eq_append] at h2
    subst h2
    simp only [rotAbs, List.getLast?_concat, List.dropLast_concat]
    simp

theorem rotAbs_eq_rotate (as : List Nat) :
    rotAbs as = as.rotate (as.length - 1) := by
  rcases List.eq_nil_or_concat as with h1 | ⟨init, z, h2⟩
  · subst h1; rfl
  · rw [List.concat_eq_append] at h2
    subst h2
    have hlen : (init ++ [z]).length - 1 = init.length := by simp
    rw [List.rotate_eq_drop_append_take (by simp), hlen, List.drop_left,
      List.take_left]
    simp only [rotAbs, List.getLast?_concat, List.dropLast_concat]
    rfl

theorem rotAbsN_rotate (n : Nat) :
    ∀ (as : List Nat), rotAbsN n as = as.rotate (n * (as.length - 1)) := by
  induction n with
  | zero => intro as; rw [Nat.zero_mul, List.rotate_zero]; rfl
  | succ n ih =>
    intro as
    show rotAbsN n (rotAbs as) = _
    rw [ih (rotAbs as), rotAbs_length, rotAbs_eq_rotate, List.rotate_rotate]
    congr 1
    ring

theorem rotAbsN_length_id (as : List Nat) : rotAbsN as.length as = as := by
  rw [rotAbsN_rotate]
  exact List.rotate_length_mul as (as.length - 1)

theorem rotateN_spec (h : Heap V) (l : ListT V) (as : List Nat) (n : Nat) :
    wfWith h l as = true →
    wfWith (rotateN h l n).1 (rotateN h l n).2 (rotAbsN n as) = true ∧
      (∀ x, valueAt (rotateN h l n).1 x = valueAt h x) ∧
      (rotateN h l n).2.len = l.len := by
  induction n generalizing h l as with
  | zero => intro hwf; exact ⟨hwf, fun x => rfl, rfl⟩
  | succ n ih =>
    intro hwf
    have hr := list_rotate_spec h l as hwf
    have hstep := ih (list_rotate h l).1 (list_rotate h l).2 (rotAbs as) hr.1
    refine ⟨hstep.1, fun x => (hstep.2.1 x).trans (hr.2.1 x), ?_⟩
    show (rotateN (list_rotate h l).1 (list_rotate h l).2 n).2.len = l.len
    rw [hstep.2.2, hr.2.2.2.2.1]

/-- C1: for every sequence of `add_front` / `add_back` / `insert` / `remove`
/ `rotate` calls applied to a freshly created list (each call carrying its
own allocation outcome, and each anchor designating a node of the list, as
the C contract requires), the list invariants hold in the resulting state:
`count` equals the number of nodes reachable from `front` via `next` links,
forward traversal from `front` is the exact reverse of backward traversal
from `back`, and `count = 0` exactly when both boundary references are
empty.  Every intermediate state of a sequence is the final state of one of
its prefixes, so quantifying over all sequences covers every intermediate
state. -/
theorem C1_invariants_hold (V : Type) (ops : List (Op V)) :
    invariants (runOps ops).1 (runOps ops).2 := by
  obtain ⟨as, hwf⟩ := stateWF_runOps ops
  exact invariants_of_wfWith _ _ as hwf

/-- C2: when the node allocation fails, `list_add_head`, `list_add` and
`list_insert` return Fail and leave everything — the heap (so every node's
links), the boundary references, the count and the three installed
callbacks — exactly as before the call. -/
theorem C2_alloc_failure_unmodified (V : Type) (h : Heap V) (l : ListT V)
    (v : V) (anchor : Nat) (after : Bool) :
    list_add_head h l v false = (h, l, false) ∧
    list_add h l v false = (h, l, false) ∧
    list_insert h l anchor v after false = (h, l, false) :=
  ⟨rfl, rfl, rfl⟩

/-- C7: on a well-formed list, `list_rotate` is a no-op when `count <= 1`;
otherwise it performs no allocation, detaches the back node and reinserts it
as the new front; and applying it `count` times restores the nodes to their
original order with every value intact. -/
theorem C7_rotate_correct (V : Type) (h : Heap V) (l : ListT V)
    (as : List Nat) (hwf : wfWith h l as = true) : rotateClaim V h l as := by
  obtain ⟨-, -, ht, hlen, -, -⟩ := (wfWith_iff h l as).mp hwf
  have hr := list_rotate_spec h l as hwf
  refine ⟨?_, ⟨hr.2.2.2.1, hr.2.2.1⟩, ?_, ?_⟩
  · intro hle
    simp [list_rotate, hle]
  · intro h2
    refine ⟨?_, hr.1⟩
    obtain ⟨-, hh', -, -, -, -⟩ := (wfWith_iff _ _ _).mp hr.1
    rw [hh', ht]
    rcases List.eq_nil_or_concat as with h1 | ⟨init, z, h2'⟩
    · subst h1; rfl
    · rw [List.concat_eq_append] at h2'
      subst h2'
      simp only [rotAbs, List.getLast?_concat]
      rfl
  · have hN := rotateN_spec h l as l.len hwf
    have hrot : rotAbsN l.len as = as := by
      rw [hlen]
      exact rotAbsN_length_id as
    rw [hrot] at hN
    exact ⟨hN.1, hN.2.1⟩

/-- Witness for C7 at the concrete three-node list `[1,2,3]`. -/
theorem C7_rotate_correct_witness :
    wfWith demoState.1 demoState.2 [0, 1, 2] = true ∧
      rotateClaim Nat demoState.1 demoState.2 [0, 1, 2] :=
  ⟨by decide,
   C7_rotate_correct Nat demoState.1 demoState.2 [0, 1, 2] (by decide)⟩

/-- C10: on a well-formed list, `list_rotate` leaves the count and the three
installed callbacks unchanged, changes no node's value, allocates and frees
nothing, and preserves the multiset of stored values; only the boundary
references and the neighbor links of the affected nodes (the front node, the
back node and the back node's predecessor) change — every other node's
record is untouched. -/
theorem C10_rotate_frame (V : Type) (h : Heap V) (l : ListT V)
    (hwf : wf h l = true) : rotateFrameClaim V h l := by
  have hwf' : wfWith h l (fwdAddrs h l.len l.head) = true := hwf
  have hr := list_rotate_spec h l _ hwf'
  obtain ⟨-, -, -, hlen, -, -⟩ := (wfWith_iff _ _ _).mp hwf'
  refine ⟨hr.2.2.2.2.1, hr.2.2.2.2.2.1, hr.2.2.2.2.2.2.1,
    hr.2.2.2.2.2.2.2.1, hr.2.1, hr.2.2.1, hr.2.2.2.1, ?_,
    hr.2.2.2.2.2.2.2.2⟩
  have hfwd' : fwdAddrs (list_rotate h l).1 (list_rotate h l).2.len
      (list_rotate h l).2.head = rotAbs (fwdAddrs h l.len l.head) := by
    apply fwdAddrs_of_wfWith (list_rotate h l).1 (list_rotate h l).2 _ hr.1
    rw [rotAbs_length, hr.2.2.2.2.1]
    exact le_of_eq hlen.symm
  rw [hfwd']
  have hv : valueAt (list_rotate h l).1 = valueAt h := funext hr.2.1
  simp only [valuesOf, hv]
  apply List.Perm.filterMap
  rcases List.eq_nil_or_concat (fwdAddrs h l.len l.head) with h1 | ⟨init, z, h2⟩
  · rw [h1]
    exact List.Perm.refl _
  · rw [List.concat_eq_append] at h2
    rw [h2]
    simp only [rotAbs, List.getLast?_concat, List.dropLast_concat]
    exact (List.perm_append_singleton z init).symm

/-- Witness for C10 at the concrete three-node list `[1,2,3]`. -/
theorem C10_rotate_frame_witness :
    wf demoState.1 demoState.2 = true ∧
      rotateFrameClaim Nat demoState.1 demoState.2 :=
  ⟨by decide, C10_rotate_frame Nat demoState.1 demoState.2 (by decide)⟩

/-- C6: on a well-formed list, `list_index` returns the `p`-th node of the
forward traversal for `p` in `[0, count)`, the `(-p-1)`-th node of the
backward traversal for `p` in `[-count, -1]`, and Empty for any `p` outside
`[-count, count)`. -/
theorem C6_index_positions (V : Type) (h : Heap V) (l : ListT V)
    (hwf : wf h l = true) (p : Int) : indexClaim V h l p := by
  have hwf' : wfWith h l (fwdAddrs h l.len l.head) = true := hwf
  obtain ⟨-, -, -, hlen, -, -⟩ := (wfWith_iff _ _ _).mp hwf'
  unfold indexClaim
  rw [list_index_spec h l _ hwf' p]
  have hbwd : bwdAddrs h l.len l.tail = (fwdAddrs h l.len l.head).reverse :=
    bwdAddrs_of_wfWith h l _ hwf' l.len (le_of_eq hlen.symm)
  rw [hbwd]
  by_cases h0 : 0 ≤ p
  · rw [if_pos h0]
    by_cases h1 : p < (l.len : Int)
    · rw [if_pos ⟨h0, h1⟩]
    · rw [if_neg (fun hc => h1 hc.2), if_neg (by omega)]
      apply List.getElem?_eq_none
      rw [← hlen]
      omega
  · rw [if_neg h0, if_neg (fun hc => h0 hc.1)]
    by_cases h2 : -(l.len : Int) ≤ p
    · rw [if_pos ⟨h2, by omega⟩]
    · rw [if_neg (fun hc => h2 hc.1)]
      apply List.getElem?_eq_none
      rw [List.length_reverse, ← hlen]
      omega

/-- Witness for C6 at the concrete three-node list `[1,2,3]` and position
`-1` (the back node). -/
theorem C6_index_positions_witness :
    wf demoState.1 demoState.2 = true ∧
      indexClaim Nat demoState.1 demoState.2 (-1) :=
  ⟨by decide, C6_index_positions Nat demoState.1 demoState.2 (by decide) (-1)⟩

-- The scan loop of `list_search` finds the first match of the chain.

theorem searchLoop_spec [DecidableEq V] (h : Heap V) (l : ListT V) (key : V)
    (as : List Nat) :
    ∀ (p : Option Nat) (fuel : Nat), chain h p as none = true →
      as.length < fuel →
      searchLoop h l key fuel ⟨as.head?, START_HEAD⟩ =
        .ok (as.find? (matchesKey h l key)) := by
  induction as with
  | nil =>
    intro p fuel hc hf
    cases fuel with
    | zero => simp at hf
    | succ k => rfl
  | cons a t ih =>
    intro p fuel hc hf
    rw [chain] at hc
    rw [chainG_cons] at hc
    obtain ⟨nd, hg, -, hn, hrest⟩ := hc
    cases fuel with
    | zero => simp at hf
    | succ k =>
      have e : searchLoop h l key (k + 1) ⟨some a, START_HEAD⟩ =
          (if (match l.match_ with
               | some m => m nd.value key
               | none => decide (key = nd.value)) = true
           then Except.ok (some a)
           else searchLoop h l key k ⟨nd.next, START_HEAD⟩) := by
        simp [searchLoop, list_next, hg]
      have hmk : matchesKey h l key a =
          (match l.match_ with
           | some m => m nd.value key
           | none => decide (key = nd.value)) := by
        simp [matchesKey, hg]
      rw [List.head?_cons, e, List.find?_cons, ← hmk]
      cases hmb : matchesKey h l key a with
      | true => simp [hmb]
      | false =>
        simp only [hmb, Bool.false_eq_true, if_false]
        rw [hn, seamN_none]
        exact ih (some a) k hrest (Nat.lt_of_succ_lt_succ hf)

/-- C9: on a well-formed list (with the internal iterator allocation
succeeding), `list_search` scans forward from the front and returns the
first node whose value matches the key — via the `match` callback when one
is installed, by identity comparison otherwise — or Empty when no node
matches. -/
theorem C9_search_first_match (V : Type) [DecidableEq V] (h : Heap V)
    (l : ListT V) (key : V) (hwf : wf h l = true) : searchClaim V h l key := by
  have hwf' : wfWith h l (fwdAddrs h l.len l.head) = true := hwf
  obtain ⟨hc, hh, -, hlen, -, -⟩ := (wfWith_iff _ _ _).mp hwf'
  unfold searchClaim
  show searchLoop h l key (l.len + 1) ⟨l.head, START_HEAD⟩ = _
  conv_lhs => rw [hh]
  exact searchLoop_spec h l key _ none (l.len + 1) hc (by rw [← hlen]; omega)

/-- Witness for C9 at the concrete three-node list `[1,2,3]` with key `2`
and no match callback (identity comparison). -/
theorem C9_search_first_match_witness :
    wf demoState.1 demoState.2 = true ∧
      searchClaim Nat demoState.1 demoState.2 2 :=
  ⟨by decide, C9_search_first_match Nat demoState.1 demoState.2 2 (by decide)⟩

/-- C8: `advance` on an exhausted iterator returns Empty with the iterator
unchanged; otherwise it returns the node under the cursor and moves the
cursor to that node's `next` (forward) or `prev` (backward) before
returning; on the forward iterator over `[1,2,3]`, the first advance yields
the node holding 1 with the cursor already on the node holding 2, and after
removing the node holding 1 the following advance still yields the node
holding 2. -/
theorem C8_advance_semantics : advanceClaim := by
  refine ⟨?_, ?_, ?_⟩
  · intro V h it hnone
    simp [list_next, hnone]
  · intro V h it a nd hit hget
    simp [list_next, hit, hget]
  · exact ⟨rfl, by decide, by decide, by decide, by decide, by decide⟩

/-- C3 (failing-input evaluation): cloning the two-element source `[10, 20]`
— duplicate callback `v + 1` and a release callback installed — with the
allocation outcomes "list struct ok, iterator ok, first node ok, second node
allocation fails".  The clone reports Fail, tears down the partial copy
(releasing the first duplicate 11 and freeing its node at address 2), and
leaves the source untouched; but the second duplicate 21, already produced
by the duplicate callback, is in the duplication trace and neither in the
release trace nor stored anywhere: it leaks, contrary to the claim that
every already-duplicated value is torn down on an internal allocation
failure. -/
theorem C3_clone_leaks_duplicate_on_alloc_failure :
    ∃ h' : Heap Nat,
      list_clone c3_state.1 c3_orig [true, true, true, false] =
        .ok (h', none, [11], [11, 21]) ∧
      valueAt h' 0 = some 10 ∧ valueAt h' 1 = some 20 ∧ h'.get 2 = none ∧
      wfWith h' c3_orig [0, 1] = true ∧
      (21 ∈ [11, 21] ∧ 21 ∉ [11]) := by
  refine ⟨_, rfl, ?_, ?_, ?_, ?_, ?_⟩ <;> decide

/-- C4 (counterexample): at the concrete three-node list with the iterator
allocation failing, `list_iterator` returns NULL (Fail), not an iterator —
so `make_iterator` can fail, contrary to the claim. -/
theorem C4_cannot_fail_counterexample :
    list_iterator demoState.2 START_HEAD false = none := rfl

/-- C4 (amended): `list_iterator` returns Fail (NULL) exactly when the
iterator allocation fails — for every list and direction; when the
allocation succeeds, it returns an iterator whose cursor is the list's front
(forward direction) or back (any other direction) at call time. -/
theorem C4_iterator_alloc_fail (V : Type) (l : ListT V) (direction : Nat) :
    list_iterator l direction false = none ∧
    list_iterator l direction true =
      some ⟨if direction = START_HEAD then l.head else l.tail, direction⟩ :=
  ⟨rfl, rfl⟩

/-- C5 (failing-input evaluation): when the internal iterator allocation
fails, `list_search` (on the list `[1,2,3]`) and `list_clone` (on the list
`[10,20]`) dereference the NULL iterator — a crash, modelled as
`Except.error ()` — instead of propagating Fail to the caller. -/
theorem C5_search_clone_crash_on_iterator_alloc_failure :
    list_search demoState.1 demoState.2 1 false = .error () ∧
    list_clone c3_state.1 c3_orig [true, false] = .error () :=
  ⟨rfl, rfl⟩

end Adlist
